import Mathlib

/-!
# Verification of the `buffer_pool` memory-pool allocator

A shallow embedding of the refined `buffer_pool<SPAN>` class (the header with
`used_chunks`/`unused_chunks` diagnostics and the tail-first free-segment
search).  The arena is modelled by its length alone; pointers into the arena
become natural-number offsets (`m_memory.begin()` is offset `0`,
`m_memory.end()` is offset `m_memorySize`, the high-water pointer `m_last` is
an offset).  `std::vector<mgm_chunk>` becomes `List mgm_chunk`, and the
iterator manipulations become index-based list operations.  A `gsl::span`
inside a `Chunk` handle is a (possibly null) base pointer plus a length;
a default-constructed span (`span_t()`) has a null pointer, modelled by
`none`.

Pointer subtraction (`std::distance`) is modelled by truncated `Nat`
subtraction; on every state considered by the theorems below, segment starts
are in ascending order, so the truncated difference agrees with the signed
pointer distance computed by the C++ code.
-/

/-- A `gsl::span`-like view: base pointer (none = `nullptr`) and length.
`span_t()` default-constructs to `⟨none, 0⟩`. -/
structure span_t where
  data : Option Nat
  size : Nat
deriving DecidableEq, Repr

/-- The internal bookkeeping record of the pool: start pointer and in-use
flag, exactly `struct mgm_chunk`. -/
structure mgm_chunk where
  m_first : Nat
  m_inUse : Bool
deriving DecidableEq, Repr

/-- The caller-facing handle `struct Chunk`: a span view plus the pool
back-pointer.  A single pool is in play in every theorem below, so the
back-pointer `m_pool` is modelled by a flag telling whether it is set
(`true` = points to the pool, `false` = `nullptr`). -/
structure Chunk where
  m_chunk : span_t
  m_pool : Bool
deriving DecidableEq, Repr

/-- A default-constructed `Chunk`: empty span, no pool. -/
def Chunk.defaultChunk : Chunk := ⟨⟨none, 0⟩, false⟩

/-- `Chunk(Chunk&& orig)`: the destination's members are default-initialized
and then swapped with `orig`'s.  Returns `(destination, orig afterwards)`. -/
def Chunk.moveConstruct (orig : Chunk) : Chunk × Chunk :=
  (orig, Chunk.defaultChunk)

/-- `Chunk& operator=(Chunk&& orig)`: swaps the two handles.  Returns
`(destination afterwards, orig afterwards)`. -/
def Chunk.moveAssign (dest orig : Chunk) : Chunk × Chunk :=
  (orig, dest)

/-- `valid()`: the handle is valid iff `m_pool != nullptr`. -/
def Chunk.valid (c : Chunk) : Bool := c.m_pool

/-- The pool object `buffer_pool<SPAN>`: arena length, bookkeeping vector
`m_chunks`, and the first-unused-address pointer `m_last`. -/
structure buffer_pool where
  m_memorySize : Nat
  m_chunks : List mgm_chunk
  m_last : Nat
deriving DecidableEq, Repr

namespace buffer_pool

/-- The constructor `buffer_pool(span_t memory)`: empty bookkeeping vector,
`m_last = std::begin(m_memory)` (offset 0). -/
def fresh (n : Nat) : buffer_pool := ⟨n, [], 0⟩

/-- The private `size(const mgm_chunk&)': locate the entry whose `m_first`
matches and measure up to the next entry's start, or up to `m_last` for the
final entry.  The C++ asserts the entry is found; the unreachable not-found
branch returns 0. -/
def chunk_size (chunks : List mgm_chunk) (last : Nat) (c : mgm_chunk) : Nat :=
  match chunks.findIdx? (fun e => e.m_first == c.m_first) with
  | none => 0
  | some i =>
    match chunks.get? (i + 1) with
    | some n => n.m_first - c.m_first
    | none => last - c.m_first

/-- `size()`: total size of the managed memory. -/
def size (p : buffer_pool) : Nat := p.m_memorySize

/-- `used_mem()`: accumulate the derived sizes of the in-use entries. -/
def used_mem (p : buffer_pool) : Nat :=
  p.m_chunks.foldl
    (fun a b => a + (if b.m_inUse then chunk_size p.m_chunks p.m_last b else 0)) 0

/-- `free_mem()`: remaining (not necessarily contiguous) free memory. -/
def free_mem (p : buffer_pool) : Nat := p.size - p.used_mem

/-- `num_chunks()`: number of bookkeeping entries. -/
def num_chunks (p : buffer_pool) : Nat := p.m_chunks.length

/-- `used_chunks()`: number of in-use bookkeeping entries. -/
def used_chunks (p : buffer_pool) : Nat :=
  (p.m_chunks.filter (fun c => c.m_inUse)).length

/-- `unused_chunks()`: number of free bookkeeping entries. -/
def unused_chunks (p : buffer_pool) : Nat :=
  (p.m_chunks.filter (fun c => !c.m_inUse)).length

/-- Index of the last element satisfying the predicate: the embedding of
`std::find_if(rbegin, rend, pred)` converted back to a forward index
(`--rit.base()`). -/
def findLastIdx? (pred : α → Bool) : List α → Option Nat
  | [] => none
  | a :: as =>
    match findLastIdx? pred as with
    | some i => some (i + 1)
    | none => if pred a then some 0 else none

/-- `std::vector::insert(l.begin() + n, a)`: insert before position `n`. -/
def insertAt (l : List α) (n : Nat) (a : α) : List α :=
  l.take n ++ a :: l.drop n

/-- The no-reuse continuation of `request`: check the unclaimed tail and
either throw (`none`) or append a new in-use entry at `m_last`. -/
def request_fresh (p : buffer_pool) (size : Nat) : Option Chunk × buffer_pool :=
  -- Check if rest of memory is large enough
  let rest := p.m_memorySize - p.m_last
  if rest < size then (none, p)
  else
    -- No chunk of suitable size found - create new one
    let b := p.m_last
    (some ⟨⟨some b, size⟩, true⟩,
      { p with m_chunks := p.m_chunks ++ [⟨b, true⟩], m_last := b + size })

/-- The reuse continuation of `request`, with the iterator position `i` of
the free entry that was found. -/
def request_reuse (p : buffer_pool) (size : Nat) (i : Nat) : Option Chunk × buffer_pool :=
  -- Re-use existing chunk.
  let b := (p.m_chunks.getD i ⟨0, true⟩).m_first
  let cs := p.m_chunks.set i ⟨b, true⟩
  -- If the new chunk doesn't fit exactly, create a new one for the rest.
  if chunk_size cs p.m_last ⟨b, true⟩ ≠ size then
    (some ⟨⟨some b, size⟩, true⟩,
      { p with m_chunks := insertAt cs (i + 1) ⟨b + size, false⟩ })
  else
    (some ⟨⟨some b, size⟩, true⟩, { p with m_chunks := cs })

/-- `request(size)`: search from the back for a free entry of sufficient
derived size; reuse it (splitting when it does not fit exactly), or append a
new entry at `m_last` when the unclaimed tail is large enough; otherwise
throw (`none`).  The pool is threaded through the result; the `none` branch
(`throw std::overflow_error`) leaves it untouched, exactly as the C++ does
since nothing was mutated before the check.  Precondition (assert):
`size < m_memory.size()`. -/
def request (p : buffer_pool) (size : Nat) : Option Chunk × buffer_pool :=
  match findLastIdx?
      (fun c => !c.m_inUse && decide (size ≤ chunk_size p.m_chunks p.m_last c))
      p.m_chunks with
  | none => request_fresh p size
  | some i => request_reuse p size i

/-- `find_chunk(const Chunk&)`: locate the entry whose start pointer equals
the handle's data pointer. -/
def find_chunk (p : buffer_pool) (chunk : Chunk) : Option Nat :=
  p.m_chunks.findIdx? (fun c => some c.m_first == chunk.m_chunk.data)

/-- The body of `release` once the iterator position `i` of the entry is
known. -/
def release_at (p : buffer_pool) (i : Nat) : buffer_pool :=
  -- First, invalidate!
  let old := p.m_chunks.getD i ⟨0, true⟩
  let cs0 := p.m_chunks.set i ⟨old.m_first, false⟩
  -- Then, see if we can merge it with a previous mgm_chunk.
  let merged := decide (i ≠ 0) && !(cs0.getD (i - 1) ⟨0, true⟩).m_inUse
  let cs1 := if merged then cs0.eraseIdx i else cs0
  let j := if merged then i - 1 else i
  if j + 1 = cs1.length then
    -- Last mgm_chunk: delete it and move m_last back to its beginning.
    { p with m_chunks := cs1.eraseIdx j, m_last := (cs1.getD j ⟨0, true⟩).m_first }
  else if !(cs1.getD (j + 1) ⟨0, true⟩).m_inUse then
    -- The next mgm_chunk is not used: merge the two.
    { p with m_chunks := cs1.eraseIdx (j + 1) }
  else
    { p with m_chunks := cs1 }

/-- `release(const Chunk&)`: mark the entry free, merge with a free
predecessor, then either collapse the tail (when it became the last entry)
or merge with a free successor.  The C++ asserts the entry is found; the
unreachable not-found branch returns the pool unchanged. -/
def release (p : buffer_pool) (chunk : Chunk) : buffer_pool :=
  match find_chunk p chunk with
  | none => p
  | some i => release_at p i

/-- The body of `resize` once the iterator position `i` of the entry is
known; `newEnd` is `chunk.m_chunk.end()`. -/
def resize_at (p : buffer_pool) (i : Nat) (newEnd : Nat) : buffer_pool :=
  if i + 1 < p.m_chunks.length then
    let nxt := p.m_chunks.getD (i + 1) ⟨0, true⟩
    if nxt.m_inUse then
      -- Insert a new unused mgm_chunk for the freed suffix.
      { p with m_chunks := insertAt p.m_chunks (i + 1) ⟨newEnd, false⟩ }
    else
      -- Extend the adjacent unused mgm_chunk backward.
      { p with m_chunks := p.m_chunks.set (i + 1) ⟨newEnd, nxt.m_inUse⟩ }
  else
    -- Last mgm_chunk: relocate m_last.
    { p with m_last := newEnd }

/-- `resize(const Chunk&)`: called by `Chunk::shrink` after the handle's view
was truncated; `chunk.m_chunk.end()` is the new end of the in-use range.
Either extend a following free entry backward, insert a fresh free entry, or
relocate `m_last` when this was the final entry. -/
def resize (p : buffer_pool) (chunk : Chunk) : buffer_pool :=
  match chunk.m_chunk.data with
  | none => p
  | some d =>
    match p.m_chunks.findIdx? (fun c => c.m_first == d) with
    | none => p
    | some i => resize_at p i (d + chunk.m_chunk.size)

end buffer_pool

/-- `Chunk::shrink(newSize)`: truncate the view and notify the pool, a no-op
when the size is unchanged.  Precondition (assert): `newSize ≤ m_chunk.size()`.
Returns the updated handle and pool. -/
def Chunk.shrink (p : buffer_pool) (c : Chunk) (newSize : Nat) : Chunk × buffer_pool :=
  if newSize ≠ c.m_chunk.size then
    let c' : Chunk := { c with m_chunk := { c.m_chunk with size := newSize } }
    (c', buffer_pool.resize p c')
  else
    (c, p)

/-- `Chunk::release()`: hand the memory back when a pool is referenced, then
clear the view.  Note the C++ clears `m_chunk` but leaves `m_pool` set.
Returns the updated handle and pool. -/
def Chunk.releaseSelf (p : buffer_pool) (c : Chunk) : Chunk × buffer_pool :=
  let p' := if c.m_pool then buffer_pool.release p c else p
  ({ c with m_chunk := ⟨none, 0⟩ }, p')

/-! ## Invariant predicates on the pool state -/

namespace buffer_pool

/-- Segment starts are strictly increasing (hence segments never overlap,
their extents being delimited by the next start). -/
def sorted_starts (p : buffer_pool) : Prop :=
  List.Pairwise (· < ·) (p.m_chunks.map mgm_chunk.m_first)

/-- No two adjacent bookkeeping entries are both free. -/
def no_adjacent_free (p : buffer_pool) : Prop :=
  List.Chain' (fun a b => a.m_inUse = true ∨ b.m_inUse = true) p.m_chunks

/-- The final bookkeeping entry, when one exists, is in use. -/
def last_in_use (p : buffer_pool) : Prop :=
  ∀ c, p.m_chunks.getLast? = some c → c.m_inUse = true

/-- Every segment starts strictly below the high-water mark `m_last`. -/
def starts_below (p : buffer_pool) : Prop :=
  ∀ c ∈ p.m_chunks, c.m_first < p.m_last

/-- The segment-list well-formedness invariant. -/
def Inv (p : buffer_pool) : Prop :=
  sorted_starts p ∧ no_adjacent_free p ∧ last_in_use p ∧ starts_below p

/-- There is an in-use bookkeeping entry starting at `s` — the pool-state
footprint of a live chunk handle over `[s, s + len)`.  In any execution
respecting the operation preconditions, the derived size of that entry
equals the live handle's view length (`request` creates them equal and both
sides are updated in lock step by `shrink`/`release`), which is how the
relations below recover the handle data from the pool state. -/
def live_at (p : buffer_pool) (s : Nat) : Prop :=
  ∃ i c, p.m_chunks.get? i = some c ∧ c.m_first = s ∧ c.m_inUse = true

/-- The chunk handle over `[s, s+n)` owned by this pool. -/
def handleAt (s n : Nat) : Chunk := ⟨⟨some s, n⟩, true⟩

/-- One public mutating call, with each operation's preconditions exactly as
the specification states them: `allocate` requires `0 < size < arena size`
(a failing allocate leaves the pool untouched and is also a step);
`release` requires a live handle; `shrink` requires a live handle and
`new_size ≤ current_size`. -/
inductive SpecStep : buffer_pool → buffer_pool → Prop
  | request (p : buffer_pool) (n : Nat) (h0 : 0 < n) (h1 : n < p.m_memorySize) :
      SpecStep p (buffer_pool.request p n).2
  | release (p : buffer_pool) (s n : Nat) (h : live_at p s)
      (hn : n = chunk_size p.m_chunks p.m_last ⟨s, true⟩) :
      SpecStep p (buffer_pool.release p (handleAt s n))
  | shrink (p : buffer_pool) (s n newSize : Nat) (h : live_at p s)
      (hn : n = chunk_size p.m_chunks p.m_last ⟨s, true⟩) (hle : newSize ≤ n) :
      SpecStep p (Chunk.shrink p (handleAt s n) newSize).2

/-- One public mutating call, with the shrink precondition strengthened to
`0 < new_size`: shrinking a chunk to size zero is excluded. -/
inductive Step : buffer_pool → buffer_pool → Prop
  | request (p : buffer_pool) (n : Nat) (h0 : 0 < n) (h1 : n < p.m_memorySize) :
      Step p (buffer_pool.request p n).2
  | release (p : buffer_pool) (s n : Nat) (h : live_at p s)
      (hn : n = chunk_size p.m_chunks p.m_last ⟨s, true⟩) :
      Step p (buffer_pool.release p (handleAt s n))
  | shrink (p : buffer_pool) (s n newSize : Nat) (h : live_at p s)
      (hn : n = chunk_size p.m_chunks p.m_last ⟨s, true⟩)
      (hpos : 0 < newSize) (hle : newSize ≤ n) :
      Step p (Chunk.shrink p (handleAt s n) newSize).2

/-- Pool states reachable from a freshly constructed pool by calls
respecting the specification's stated preconditions. -/
def SpecReachable (N : Nat) (p : buffer_pool) : Prop :=
  Relation.ReflTransGen SpecStep (fresh N) p

/-- Pool states reachable from a freshly constructed pool by calls
respecting the strengthened preconditions (no shrink-to-zero). -/
def Reachable (N : Nat) (p : buffer_pool) : Prop :=
  Relation.ReflTransGen Step (fresh N) p

end buffer_pool

/-! ## Helper lemmas about the search primitives -/

namespace buffer_pool

theorem findLastIdx?_eq_none {α} {pred : α → Bool} {l : List α}
    (h : ∀ a ∈ l, pred a = false) : findLastIdx? pred l = none := by
  induction l with
  | nil => rfl
  | cons a as ih =>
    simp only [findLastIdx?]
    rw [ih (fun x hx => h x (List.mem_cons_of_mem a hx))]
    simp [h a (List.mem_cons_self a as)]

end buffer_pool

/-! ## Claim theorems: concrete executions -/

open buffer_pool

/-- **C3.** If no free segment has derived size at least `n` and the
unclaimed tail `[m_last, arena end)` is shorter than `n`, then `request`
fails (throws `CapacityExceeded`, modelled by `none`) and returns the pool
exactly as it was, so in particular `used_mem` is unchanged. -/
theorem C3_request_failure_leaves_pool_unchanged (p : buffer_pool) (n : Nat)
    (h0 : 0 < n) (h1 : n < p.m_memorySize)
    (hfree : ∀ c ∈ p.m_chunks, c.m_inUse = true ∨ chunk_size p.m_chunks p.m_last c < n)
    (htail : p.m_memorySize - p.m_last < n) :
    buffer_pool.request p n = (none, p) ∧
      used_mem (buffer_pool.request p n).2 = used_mem p := by
  have hnone : findLastIdx?
      (fun c => !c.m_inUse && decide (n ≤ chunk_size p.m_chunks p.m_last c))
      p.m_chunks = none := by
    apply findLastIdx?_eq_none
    intro a ha
    rcases hfree a ha with hu | hs
    · simp [hu]
    · simp [Nat.not_le_of_lt hs]
  have : buffer_pool.request p n = (none, p) := by
    unfold buffer_pool.request
    rw [hnone]
    unfold request_fresh
    simp [htail]
  exact ⟨this, by rw [this]⟩

/-- **C3 witness.** A pool over an 8-byte arena with one 6-byte chunk: a
4-byte request fails and leaves the pool untouched. -/
theorem C3_witness :
    (0 < 4 ∧ 4 < (request (fresh 8) 6).2.m_memorySize ∧
      buffer_pool.request (request (fresh 8) 6).2 4 = (none, (request (fresh 8) 6).2)) := by
  refine ⟨by decide, by decide, ?_⟩
  exact (C3_request_failure_leaves_pool_unchanged (request (fresh 8) 6).2 4
    (by decide) (by decide) (by decide) (by decide)).1

/-- The pool after allocating four 10-byte chunks `c0..c3` from a fresh
1024-byte arena (the chunks start at 0, 10, 20, 30). -/
def poolFour : buffer_pool :=
  (request (request (request (request (fresh 1024) 10).2 10).2 10).2 10).2

/-- `poolFour` after releasing `c1` (the chunk at offset 10). -/
def poolFourR1 : buffer_pool := release poolFour (handleAt 10 10)

/-- `poolFourR1` after releasing `c2` (the chunk at offset 20). -/
def poolFourR12 : buffer_pool := release poolFourR1 (handleAt 20 10)

/-- **C7.** In a 1024-byte arena with four 10-byte chunks: releasing `c1`
leaves `used_mem() = 30` with exactly one free segment, of size 10; then
releasing the adjacent `c2` merges the free regions into one free segment of
size 20 (free-segment count stays 1); and releasing all four chunks in any
order ends with `used_mem() = 0` and zero tracked segments. -/
theorem C7_release_merging_and_full_collapse :
    used_mem poolFour = 40 ∧
    used_mem poolFourR1 = 30 ∧ unused_chunks poolFourR1 = 1 ∧
    (poolFourR1.m_chunks.filter (fun c => !c.m_inUse)).map
      (chunk_size poolFourR1.m_chunks poolFourR1.m_last) = [10] ∧
    used_mem poolFourR12 = 20 ∧ unused_chunks poolFourR12 = 1 ∧
    (poolFourR12.m_chunks.filter (fun c => !c.m_inUse)).map
      (chunk_size poolFourR12.m_chunks poolFourR12.m_last) = [20] ∧
    ∀ l : List Nat, l.Perm [0, 10, 20, 30] →
      used_mem (l.foldl (fun p s => release p (handleAt s 10)) poolFour) = 0 ∧
      num_chunks (l.foldl (fun p s => release p (handleAt s 10)) poolFour) = 0 := by
  refine ⟨by decide, by decide, by decide, by decide, by decide, by decide, by decide, ?_⟩
  intro l hl
  have hm : l ∈ ([0, 10, 20, 30] : List Nat).permutations' :=
    List.mem_permutations'.2 hl
  clear hl
  revert hm
  revert l
  decide

/-- **C8.** Fresh 1024-byte pool: allocate 10 bytes (chunk starts at 0,
high-water mark 10), release it, allocate 10 bytes again — the second chunk
also starts at 0 and the high-water mark is again 10, not higher. -/
theorem C8_region_reused_after_release :
    (request (fresh 1024) 10).1 = some (handleAt 0 10) ∧
    (request (fresh 1024) 10).2.m_last = 10 ∧
    (request
        (Chunk.releaseSelf (request (fresh 1024) 10).2
          ((request (fresh 1024) 10).1.getD Chunk.defaultChunk)).2 10).1 =
      some (handleAt 0 10) ∧
    (request
        (Chunk.releaseSelf (request (fresh 1024) 10).2
          ((request (fresh 1024) 10).1.getD Chunk.defaultChunk)).2 10).2.m_last = 10 := by
  decide

/-- **C2 (code evaluation).** Take the chunk returned by `request 10` on a
fresh 1024-byte pool and call `release()` on it.  The segment is freed (the
pool returns to its fresh state), but the handle keeps its pool pointer:
`valid()` still returns `true`, because `Chunk::release()` clears `m_chunk`
without clearing `m_pool`.  A second `release()` therefore re-enters
`buffer_pool::release` with a null span, where `find_chunk` finds nothing
and the C++ `assert(it != end(m_chunks))` fails (undefined behavior under
`NDEBUG`).  This contradicts both the claim and the code's own documentation
("The chunk becomes invalid after being released."). -/
theorem C2_released_handle_still_reports_valid :
    (Chunk.releaseSelf (request (fresh 1024) 10).2
        ((request (fresh 1024) 10).1.getD Chunk.defaultChunk)).2 = fresh 1024 ∧
    Chunk.valid
      (Chunk.releaseSelf (request (fresh 1024) 10).2
        ((request (fresh 1024) 10).1.getD Chunk.defaultChunk)).1 = true ∧
    find_chunk (fresh 1024)
      (Chunk.releaseSelf (request (fresh 1024) 10).2
        ((request (fresh 1024) 10).1.getD Chunk.defaultChunk)).1 = none := by
  decide

/-- **C9 (counterexample).** Move-assigning onto a *live* destination handle
does not leave the moved-from handle invalid: `operator=(Chunk&&)` swaps the
two handles, so the moved-from handle receives the destination's previous
view and pool pointer and still reports `valid()`. -/
theorem C9_counterexample_move_assign_onto_live_handle :
    (Chunk.moveAssign ⟨⟨some 0, 10⟩, true⟩ ⟨⟨some 20, 5⟩, true⟩).2.valid = true ∧
    (Chunk.moveAssign ⟨⟨some 0, 10⟩, true⟩ ⟨⟨some 20, 5⟩, true⟩).2 ≠
      Chunk.defaultChunk := by
  decide

/-- **C9 (amended).** Move construction transfers the view and pool
back-reference and leaves the moved-from handle invalid (empty view, no
pool; the default handle).  Move assignment swaps the two handles: the
destination receives the source's view and pool back-reference, the
moved-from handle receives the destination's *previous* view and pool
(whatever they were — when the destination was live, its old chunk now lives
in the moved-from handle), and consequently the moved-from handle is
invalid (`valid() = false`, resp. equal to the default handle) exactly when
the destination was invalid (resp. the default handle) beforehand. -/
theorem C9_amended_move_semantics (dest orig : Chunk) :
    Chunk.moveConstruct orig = (orig, Chunk.defaultChunk) ∧
    Chunk.moveAssign dest orig = (orig, dest) ∧
    ((Chunk.moveAssign dest orig).2.valid = false ↔ dest.valid = false) ∧
    ((Chunk.moveAssign dest orig).2 = Chunk.defaultChunk ↔ dest = Chunk.defaultChunk) :=
  ⟨rfl, rfl, Iff.rfl, Iff.rfl⟩

/-- **C9 witness.** The amended move-semantics theorem applied to a concrete
live source handle and a concrete *live* destination: the moved-from handle
ends up holding the destination's previous view, still valid. -/
theorem C9_witness :
    Chunk.moveConstruct ⟨⟨some 3, 7⟩, true⟩ = (⟨⟨some 3, 7⟩, true⟩, Chunk.defaultChunk) ∧
    Chunk.moveAssign ⟨⟨some 40, 8⟩, true⟩ ⟨⟨some 3, 7⟩, true⟩ =
      (⟨⟨some 3, 7⟩, true⟩, ⟨⟨some 40, 8⟩, true⟩) ∧
    ((Chunk.moveAssign ⟨⟨some 40, 8⟩, true⟩ ⟨⟨some 3, 7⟩, true⟩).2.valid = false ↔
      (⟨⟨some 40, 8⟩, true⟩ : Chunk).valid = false) ∧
    ((Chunk.moveAssign ⟨⟨some 40, 8⟩, true⟩ ⟨⟨some 3, 7⟩, true⟩).2 = Chunk.defaultChunk ↔
      (⟨⟨some 40, 8⟩, true⟩ : Chunk) = Chunk.defaultChunk) :=
  C9_amended_move_semantics ⟨⟨some 40, 8⟩, true⟩ ⟨⟨some 3, 7⟩, true⟩

/-! ## List-surgery lemmas

The C++ operations work with an iterator into `m_chunks`; the proofs below
repeatedly decompose the list as `A ++ c :: B` with the iterator on `c`.
These lemmas compute each primitive on such a decomposition. -/

namespace buffer_pool

theorem findIdx?_append_cons {α} (pred : α → Bool) (A : List α) (c : α) (B : List α)
    (hA : ∀ a ∈ A, pred a = false) (hc : pred c = true) (i : Nat) :
    List.findIdx? pred (A ++ c :: B) i = some (A.length + i) := by
  induction A generalizing i with
  | nil => simp [List.findIdx?_cons, hc]
  | cons a as ih =>
    have ha : pred a = false := hA a (List.mem_cons_self a as)
    simp only [List.cons_append, List.findIdx?_cons, ha, Bool.false_eq_true, if_false]
    rw [ih (fun x hx => hA x (List.mem_cons_of_mem a hx)) (i + 1)]
    congr 1
    simp only [List.length_cons]
    omega

theorem set_append_cons {α} (A : List α) (c : α) (B : List α) (c' : α) :
    (A ++ c :: B).set A.length c' = A ++ c' :: B := by
  induction A with
  | nil => rfl
  | cons a as ih => simp [List.set, ih]

theorem eraseIdx_append_cons {α} (A : List α) (c : α) (B : List α) :
    (A ++ c :: B).eraseIdx A.length = A ++ B := by
  induction A with
  | nil => rfl
  | cons a as ih => simp [List.eraseIdx, ih]

theorem insertAt_append_cons {α} (A : List α) (B : List α) (x : α) :
    insertAt (A ++ B) A.length x = A ++ x :: B := by
  unfold insertAt
  rw [List.take_left, List.drop_left]

theorem getD_append_cons {α} (A : List α) (c : α) (B : List α) (d : α) :
    (A ++ c :: B).getD A.length d = c := by
  induction A with
  | nil => rfl
  | cons a as ih => simpa [List.getD] using ih

theorem getD_append_cons_succ {α} (A : List α) (c : α) (B : List α) (d : α) :
    (A ++ c :: B).getD (A.length + 1) d = B.getD 0 d := by
  induction A with
  | nil => rfl
  | cons a as ih => simpa [List.getD] using ih

theorem get?_append_cons {α} (A : List α) (c : α) (B : List α) :
    (A ++ c :: B).get? A.length = some c := by
  induction A with
  | nil => rfl
  | cons a as ih => simpa using ih

theorem get?_append_cons_succ {α} (A : List α) (c : α) (B : List α) :
    (A ++ c :: B).get? (A.length + 1) = B.get? 0 := by
  induction A with
  | nil => rfl
  | cons a as ih => simpa using ih

theorem length_append_cons {α} (A : List α) (c : α) (B : List α) :
    (A ++ c :: B).length = A.length + B.length + 1 := by
  simp [List.length_append]
  omega

theorem get?_eq_some_split {α} {l : List α} {i : Nat} {c : α}
    (h : l.get? i = some c) : ∃ A B, l = A ++ c :: B ∧ A.length = i := by
  induction l generalizing i with
  | nil => simp at h
  | cons a as ih =>
    cases i with
    | zero =>
      simp only [List.get?] at h
      exact ⟨[], as, by simp [Option.some_inj.1 h], rfl⟩
    | succ k =>
      simp only [List.get?] at h
      obtain ⟨A, B, hAB, hlen⟩ := ih h
      exact ⟨a :: A, B, by simp [hAB], by simp [hlen]⟩

theorem findLastIdx?_eq_some {α} {pred : α → Bool} {l : List α} {i : Nat}
    (h : findLastIdx? pred l = some i) :
    ∃ c, l.get? i = some c ∧ pred c = true := by
  induction l generalizing i with
  | nil => simp [findLastIdx?] at h
  | cons a as ih =>
    simp only [findLastIdx?] at h
    cases hrec : findLastIdx? pred as with
    | some k =>
      rw [hrec] at h
      obtain ⟨c, hc, hp⟩ := ih hrec
      cases h
      exact ⟨c, by simpa using hc, hp⟩
    | none =>
      rw [hrec] at h
      by_cases hp : pred a = true
      · simp only [hp, if_true] at h
        cases h
        exact ⟨a, rfl, hp⟩
      · simp only [hp] at h
        simp at h

end buffer_pool

/-! ## Positional reading of `used_mem`

`chunk_size` looks an entry up by its start pointer; when the starts are
pairwise distinct the lookup lands on the entry itself, so the derived size
is determined by the entry's position.  `posSizes` is that positional
reading, convenient for induction. -/

namespace buffer_pool

/-- Sum of the derived sizes of the in-use entries, reading each entry's end
from the next entry's start (or from `last` for the final entry). -/
def posSizes : List mgm_chunk → Nat → Nat
  | [], _ => 0
  | [c], last => if c.m_inUse then last - c.m_first else 0
  | c :: d :: rest, last =>
    (if c.m_inUse then d.m_first - c.m_first else 0) + posSizes (d :: rest) last

theorem posSizes_append_cons (A : List mgm_chunk) (c : mgm_chunk)
    (B : List mgm_chunk) (last : Nat) :
    posSizes (A ++ c :: B) last = posSizes A c.m_first + posSizes (c :: B) last := by
  induction A with
  | nil => simp [posSizes]
  | cons a as ih =>
    cases as with
    | nil => simp [posSizes]
    | cons a' as' =>
      have hih := ih
      simp only [List.cons_append] at hih ⊢
      rw [show posSizes (a :: a' :: (as' ++ c :: B)) last =
        (if a.m_inUse then a'.m_first - a.m_first else 0) +
          posSizes (a' :: (as' ++ c :: B)) last from rfl]
      rw [show posSizes (a :: a' :: as') c.m_first =
        (if a.m_inUse then a'.m_first - a.m_first else 0) +
          posSizes (a' :: as') c.m_first from rfl]
      omega

theorem chunk_size_split (A : List mgm_chunk) (c : mgm_chunk) (B : List mgm_chunk)
    (last : Nat) (hA : ∀ a ∈ A, a.m_first ≠ c.m_first) :
    chunk_size (A ++ c :: B) last c =
      match B.head? with
      | some d => d.m_first - c.m_first
      | none => last - c.m_first := by
  have hfind : List.findIdx? (fun e => e.m_first == c.m_first) (A ++ c :: B) =
      some A.length := by
    simpa using findIdx?_append_cons (fun e => e.m_first == c.m_first) A c B
      (fun a ha => by simpa using hA a ha) (by simp) 0
  simp only [chunk_size, hfind, get?_append_cons_succ]
  cases B with
  | nil => rfl
  | cons d B' => rfl

theorem foldl_add_eq (g : mgm_chunk → Nat) (l : List mgm_chunk) (n : Nat) :
    l.foldl (fun a b => a + g b) n = n + (l.map g).sum := by
  induction l generalizing n with
  | nil => simp
  | cons a as ih => simp [ih]; omega

/-- Every in-use entry can be found by its start: no earlier entry shares
the start of a later in-use entry.  This is what the `find`-based size
computation needs to agree with the positional reading; it follows from
pairwise-distinct starts, but also holds in the degenerate lists created by
shrink-to-zero where only a *free* entry duplicates a start. -/
def findable (L : List mgm_chunk) : Prop :=
  List.Pairwise (fun a b => b.m_inUse = true → a.m_first ≠ b.m_first) L

theorem map_chunkSize_sum (full : List mgm_chunk) (last : Nat)
    (hud : findable full) :
    ∀ A B : List mgm_chunk, full = A ++ B →
      (B.map fun b => if b.m_inUse then chunk_size full last b else 0).sum =
        posSizes B last := by
  intro A B
  induction B generalizing A with
  | nil => intro _; simp [posSizes]
  | cons b B' ih =>
    intro hfull
    have hrest := ih (A ++ [b]) (by rw [hfull]; simp)
    cases hbu : b.m_inUse with
    | false =>
      simp only [List.map_cons, List.sum_cons, hrest, hbu, Bool.false_eq_true,
        if_false, Nat.zero_add]
      cases B' with
      | nil => simp [posSizes, hbu]
      | cons d r => simp [posSizes, hbu]
    | true =>
      have hAb : ∀ a ∈ A, a.m_first ≠ b.m_first := by
        intro a ha
        have hx := hud
        unfold findable at hx
        rw [hfull, List.pairwise_append] at hx
        exact hx.2.2 a ha b (List.mem_cons_self b B') hbu
      have hb : chunk_size full last b =
          match B'.head? with
          | some d => d.m_first - b.m_first
          | none => last - b.m_first := by
        rw [hfull]; exact chunk_size_split A b B' last hAb
      simp only [List.map_cons, List.sum_cons, hrest, hb]
      cases B' with
      | nil => simp [posSizes, hbu]
      | cons d r => simp [posSizes, hbu]

/-- When every in-use entry is findable by its start, the C++ `used_mem`
computation agrees with the positional sum. -/
theorem used_mem_eq_posSizes_of_findable (p : buffer_pool)
    (hud : findable p.m_chunks) :
    used_mem p = posSizes p.m_chunks p.m_last := by
  unfold used_mem
  rw [foldl_add_eq]
  simpa using map_chunkSize_sum p.m_chunks p.m_last hud [] p.m_chunks rfl

theorem findable_of_nodup {L : List mgm_chunk}
    (hnd : (L.map mgm_chunk.m_first).Nodup) : findable L := by
  unfold findable
  have h := List.pairwise_map.1 hnd
  apply List.Pairwise.imp _ h
  intro a b hab _
  exact hab

/-- Under pairwise-distinct starts the C++ `used_mem` computation agrees
with the positional sum. -/
theorem used_mem_eq_posSizes (p : buffer_pool)
    (hnd : (p.m_chunks.map mgm_chunk.m_first).Nodup) :
    used_mem p = posSizes p.m_chunks p.m_last :=
  used_mem_eq_posSizes_of_findable p (findable_of_nodup hnd)

theorem sorted_starts_nodup {p : buffer_pool} (h : sorted_starts p) :
    (p.m_chunks.map mgm_chunk.m_first).Nodup :=
  h.imp (fun hlt => Nat.ne_of_lt hlt)

theorem posSizes_add_head_le (cs : List mgm_chunk) (stop : Nat)
    (hs : List.Pairwise (· < ·) (cs.map mgm_chunk.m_first))
    (hb : ∀ c ∈ cs, c.m_first ≤ stop) :
    ∀ c0, cs.head? = some c0 → posSizes cs stop + c0.m_first ≤ stop := by
  induction cs with
  | nil => intro c0 h; simp at h
  | cons c cs' ih =>
    intro c0 hc0
    rw [List.head?_cons] at hc0
    cases hc0
    cases cs' with
    | nil =>
      have h1 := hb c (List.mem_cons_self c [])
      simp only [posSizes]
      split <;> omega
    | cons d r =>
      rw [List.map_cons, List.pairwise_cons] at hs
      have hcd : c.m_first < d.m_first := hs.1 d.m_first (by simp)
      have hih := ih hs.2 (fun x hx => hb x (List.mem_cons_of_mem c hx)) d rfl
      simp only [posSizes] at hih ⊢
      split <;> omega

theorem posSizes_le (cs : List mgm_chunk) (stop : Nat)
    (hs : List.Pairwise (· < ·) (cs.map mgm_chunk.m_first))
    (hb : ∀ c ∈ cs, c.m_first ≤ stop) :
    posSizes cs stop ≤ stop := by
  cases cs with
  | nil => simp [posSizes]
  | cons c cs' =>
    have := posSizes_add_head_le (c :: cs') stop hs hb c rfl
    omega

end buffer_pool

namespace buffer_pool

theorem getD_append_cons_one (A : List mgm_chunk) (x c : mgm_chunk)
    (B : List mgm_chunk) (d : mgm_chunk) :
    (A ++ x :: c :: B).getD (A.length + 1) d = c := by
  have h := getD_append_cons_succ A x (c :: B) d
  simpa using h

theorem set_append_cons_one (A : List mgm_chunk) (x c : mgm_chunk)
    (B : List mgm_chunk) (c' : mgm_chunk) :
    (A ++ x :: c :: B).set (A.length + 1) c' = A ++ x :: c' :: B := by
  induction A with
  | nil => rfl
  | cons a as ih => simp [List.set, ih]

theorem eraseIdx_append_cons_one (A : List mgm_chunk) (x c : mgm_chunk)
    (B : List mgm_chunk) :
    (A ++ x :: c :: B).eraseIdx (A.length + 1) = A ++ x :: B := by
  induction A with
  | nil => rfl
  | cons a as ih => simp [List.eraseIdx, ih]

theorem insertAt_append_cons_one (A : List mgm_chunk) (x : mgm_chunk)
    (B : List mgm_chunk) (y : mgm_chunk) :
    insertAt (A ++ x :: B) (A.length + 1) y = A ++ x :: y :: B := by
  have h := insertAt_append_cons (A ++ [x]) B y
  simpa using h

theorem getElem_append_cons_zero (A : List mgm_chunk) (c : mgm_chunk)
    (B : List mgm_chunk) (h : A.length < (A ++ c :: B).length) :
    (A ++ c :: B)[A.length] = c := by
  have h2 : (A ++ c :: B).get? A.length = some c := get?_append_cons A c B
  rw [List.get?_eq_getElem?, List.getElem?_eq_getElem h] at h2
  exact Option.some_inj.1 h2

theorem getElem_append_cons_one (A : List mgm_chunk) (x c : mgm_chunk)
    (B : List mgm_chunk) (h : A.length + 1 < (A ++ x :: c :: B).length) :
    (A ++ x :: c :: B)[A.length + 1] = c := by
  have h2 : (A ++ x :: c :: B).get? (A.length + 1) = some c := by
    simpa using get?_append_cons_succ A x (c :: B)
  rw [List.get?_eq_getElem?, List.getElem?_eq_getElem h] at h2
  exact Option.some_inj.1 h2

/-- find_chunk on a decomposition. -/
theorem find_chunk_split (p : buffer_pool) (A : List mgm_chunk) (c : mgm_chunk)
    (B : List mgm_chunk) (n : Nat)
    (hp : p.m_chunks = A ++ c :: B) (hA : ∀ a ∈ A, a.m_first ≠ c.m_first) :
    find_chunk p (handleAt c.m_first n) = some A.length := by
  unfold find_chunk handleAt
  rw [hp]
  simpa using findIdx?_append_cons (fun e => some e.m_first == some c.m_first) A c B
    (fun a ha => by simpa using hA a ha) (by simp) 0

/-- Release, case: free predecessor, released entry is last.  The flag of
the released entry is arbitrary: release marks it free regardless. -/
theorem release_merge_collapse (p : buffer_pool) (A' : List mgm_chunk) (t s n : Nat)
    (fl : Bool)
    (hA : ∀ a ∈ A' ++ [(⟨t, false⟩ : mgm_chunk)], a.m_first ≠ s)
    (hp : p.m_chunks = A' ++ ⟨t, false⟩ :: [⟨s, fl⟩]) :
    release p (handleAt s n) = ⟨p.m_memorySize, A', t⟩ := by
  have hfind : find_chunk p (handleAt s n) = some (A'.length + 1) := by
    have h := find_chunk_split p (A' ++ [⟨t, false⟩]) ⟨s, fl⟩ [] n (by simpa using hp) hA
    simpa using h
  have h1 : p.m_chunks.getD (A'.length + 1) ⟨0, true⟩ = ⟨s, fl⟩ := by
    rw [hp]; exact getD_append_cons_one A' ⟨t, false⟩ ⟨s, fl⟩ [] ⟨0, true⟩
  have h2 : p.m_chunks.set (A'.length + 1) ⟨s, false⟩ =
      A' ++ (⟨t, false⟩ : mgm_chunk) :: [⟨s, false⟩] := by
    rw [hp]; exact set_append_cons_one A' ⟨t, false⟩ ⟨s, fl⟩ [] ⟨s, false⟩
  have h3 : (A' ++ (⟨t, false⟩ : mgm_chunk) :: [⟨s, false⟩]).getD (A'.length + 1 - 1)
      ⟨0, true⟩ = ⟨t, false⟩ := by
    simpa using getD_append_cons A' (⟨t, false⟩ : mgm_chunk) [⟨s, false⟩] ⟨0, true⟩
  have h4 : (A' ++ (⟨t, false⟩ : mgm_chunk) :: [⟨s, false⟩]).eraseIdx (A'.length + 1) =
      A' ++ [⟨t, false⟩] := by
    simpa using eraseIdx_append_cons_one A' (⟨t, false⟩ : mgm_chunk) (⟨s, false⟩ : mgm_chunk) []
  have h5 : (A' ++ [(⟨t, false⟩ : mgm_chunk)]).getD (A'.length + 1 - 1) ⟨0, true⟩ =
      ⟨t, false⟩ := by
    simpa using getD_append_cons A' (⟨t, false⟩ : mgm_chunk) [] ⟨0, true⟩
  have h6 : (A' ++ [(⟨t, false⟩ : mgm_chunk)]).eraseIdx (A'.length + 1 - 1) = A' := by
    simpa using eraseIdx_append_cons A' (⟨t, false⟩ : mgm_chunk) []
  simp only [release, hfind, release_at, h1, h2, h3, h4, h5, h6]
  simp [length_append_cons, eraseIdx_append_cons]

end buffer_pool

namespace buffer_pool

/-- Release, case: free predecessor, free successor (double merge). -/
theorem release_merge_mergeNext (p : buffer_pool) (A' : List mgm_chunk) (t s e n : Nat)
    (B' : List mgm_chunk) (fl : Bool)
    (hA : ∀ a ∈ A' ++ [(⟨t, false⟩ : mgm_chunk)], a.m_first ≠ s)
    (hp : p.m_chunks = A' ++ (⟨t, false⟩ : mgm_chunk) :: ⟨s, fl⟩ :: ⟨e, false⟩ :: B') :
    release p (handleAt s n) =
      { p with m_chunks := A' ++ (⟨t, false⟩ : mgm_chunk) :: B' } := by
  have hfind : find_chunk p (handleAt s n) = some (A'.length + 1) := by
    have h := find_chunk_split p (A' ++ [⟨t, false⟩]) ⟨s, fl⟩ (⟨e, false⟩ :: B') n
      (by simpa using hp) hA
    simpa using h
  have h1 : p.m_chunks.getD (A'.length + 1) ⟨0, true⟩ = ⟨s, fl⟩ := by
    rw [hp]; exact getD_append_cons_one A' ⟨t, false⟩ ⟨s, fl⟩ (⟨e, false⟩ :: B') ⟨0, true⟩
  have h2 : p.m_chunks.set (A'.length + 1) ⟨s, false⟩ =
      A' ++ (⟨t, false⟩ : mgm_chunk) :: ⟨s, false⟩ :: ⟨e, false⟩ :: B' := by
    rw [hp]; exact set_append_cons_one A' ⟨t, false⟩ ⟨s, fl⟩ (⟨e, false⟩ :: B') ⟨s, false⟩
  have h3 : (A' ++ (⟨t, false⟩ : mgm_chunk) :: ⟨s, false⟩ :: ⟨e, false⟩ :: B').getD
      (A'.length + 1 - 1) ⟨0, true⟩ = ⟨t, false⟩ := by
    simpa using getD_append_cons A' (⟨t, false⟩ : mgm_chunk) (⟨s, false⟩ :: ⟨e, false⟩ :: B')
      ⟨0, true⟩
  have h4 : (A' ++ (⟨t, false⟩ : mgm_chunk) :: ⟨s, false⟩ :: ⟨e, false⟩ :: B').eraseIdx
      (A'.length + 1) = A' ++ (⟨t, false⟩ : mgm_chunk) :: ⟨e, false⟩ :: B' := by
    simpa using eraseIdx_append_cons_one A' (⟨t, false⟩ : mgm_chunk) (⟨s, false⟩ : mgm_chunk)
      (⟨e, false⟩ :: B')
  have hlen : ¬(A'.length + 1 - 1 + 1 =
      (A' ++ (⟨t, false⟩ : mgm_chunk) :: ⟨e, false⟩ :: B').length) := by
    rw [length_append_cons]
    simp
  have h5 : (A' ++ (⟨t, false⟩ : mgm_chunk) :: ⟨e, false⟩ :: B').getD
      (A'.length + 1 - 1 + 1) ⟨0, true⟩ = ⟨e, false⟩ := by
    simpa using getD_append_cons_one A' (⟨t, false⟩ : mgm_chunk) (⟨e, false⟩ : mgm_chunk) B'
      ⟨0, true⟩
  have h6 : (A' ++ (⟨t, false⟩ : mgm_chunk) :: ⟨e, false⟩ :: B').eraseIdx
      (A'.length + 1 - 1 + 1) = A' ++ (⟨t, false⟩ : mgm_chunk) :: B' := by
    simpa using eraseIdx_append_cons_one A' (⟨t, false⟩ : mgm_chunk) (⟨e, false⟩ : mgm_chunk) B'
  simp only [release, hfind, release_at, h1, h2, h3, h4]
  simp [hlen, h5, h6, getElem_append_cons_one, eraseIdx_append_cons_one]

end buffer_pool

namespace buffer_pool

/-- Release, case: free predecessor, in-use successor (single merge). -/
theorem release_merge_keep (p : buffer_pool) (A' : List mgm_chunk) (t s e n : Nat)
    (B' : List mgm_chunk) (fl : Bool)
    (hA : ∀ a ∈ A' ++ [(⟨t, false⟩ : mgm_chunk)], a.m_first ≠ s)
    (hp : p.m_chunks = A' ++ (⟨t, false⟩ : mgm_chunk) :: ⟨s, fl⟩ :: ⟨e, true⟩ :: B') :
    release p (handleAt s n) =
      { p with m_chunks := A' ++ (⟨t, false⟩ : mgm_chunk) :: ⟨e, true⟩ :: B' } := by
  have hfind : find_chunk p (handleAt s n) = some (A'.length + 1) := by
    have h := find_chunk_split p (A' ++ [⟨t, false⟩]) ⟨s, fl⟩ (⟨e, true⟩ :: B') n
      (by simpa using hp) hA
    simpa using h
  have h1 : p.m_chunks.getD (A'.length + 1) ⟨0, true⟩ = ⟨s, fl⟩ := by
    rw [hp]; exact getD_append_cons_one A' ⟨t, false⟩ ⟨s, fl⟩ (⟨e, true⟩ :: B') ⟨0, true⟩
  have h2 : p.m_chunks.set (A'.length + 1) ⟨s, false⟩ =
      A' ++ (⟨t, false⟩ : mgm_chunk) :: ⟨s, false⟩ :: ⟨e, true⟩ :: B' := by
    rw [hp]; exact set_append_cons_one A' ⟨t, false⟩ ⟨s, fl⟩ (⟨e, true⟩ :: B') ⟨s, false⟩
  have h3 : (A' ++ (⟨t, false⟩ : mgm_chunk) :: ⟨s, false⟩ :: ⟨e, true⟩ :: B').getD
      (A'.length + 1 - 1) ⟨0, true⟩ = ⟨t, false⟩ := by
    simpa using getD_append_cons A' (⟨t, false⟩ : mgm_chunk) (⟨s, false⟩ :: ⟨e, true⟩ :: B')
      ⟨0, true⟩
  have h4 : (A' ++ (⟨t, false⟩ : mgm_chunk) :: ⟨s, false⟩ :: ⟨e, true⟩ :: B').eraseIdx
      (A'.length + 1) = A' ++ (⟨t, false⟩ : mgm_chunk) :: ⟨e, true⟩ :: B' := by
    simpa using eraseIdx_append_cons_one A' (⟨t, false⟩ : mgm_chunk) (⟨s, false⟩ : mgm_chunk)
      (⟨e, true⟩ :: B')
  have hlen : ¬(A'.length + 1 - 1 + 1 =
      (A' ++ (⟨t, false⟩ : mgm_chunk) :: ⟨e, true⟩ :: B').length) := by
    rw [length_append_cons]
    simp
  simp only [release, hfind, release_at, h1, h2, h3, h4]
  simp [hlen, getElem_append_cons_one, eraseIdx_append_cons_one]

/-- Release, case: no free predecessor, released entry is last (tail
collapse). -/
theorem release_noMerge_collapse (p : buffer_pool) (A : List mgm_chunk) (s n : Nat)
    (fl : Bool)
    (hprev : A = [] ∨ ∃ u A'', A = A'' ++ [(⟨u, true⟩ : mgm_chunk)])
    (hA : ∀ a ∈ A, a.m_first ≠ s)
    (hp : p.m_chunks = A ++ [⟨s, fl⟩]) :
    release p (handleAt s n) = ⟨p.m_memorySize, A, s⟩ := by
  have hfind : find_chunk p (handleAt s n) = some A.length :=
    find_chunk_split p A ⟨s, fl⟩ [] n hp hA
  have h1 : p.m_chunks.getD A.length ⟨0, true⟩ = ⟨s, fl⟩ := by
    rw [hp]; exact getD_append_cons A ⟨s, fl⟩ [] ⟨0, true⟩
  have h2 : p.m_chunks.set A.length ⟨s, false⟩ = A ++ [⟨s, false⟩] := by
    rw [hp]; exact set_append_cons A ⟨s, fl⟩ [] ⟨s, false⟩
  have h5 : (A ++ [(⟨s, false⟩ : mgm_chunk)]).getD A.length ⟨0, true⟩ = ⟨s, false⟩ :=
    getD_append_cons A ⟨s, false⟩ [] ⟨0, true⟩
  have h6 : (A ++ [(⟨s, false⟩ : mgm_chunk)]).eraseIdx A.length = A := by
    simpa using eraseIdx_append_cons A (⟨s, false⟩ : mgm_chunk) []
  have hm : (decide (A.length ≠ 0) &&
      !((A ++ [(⟨s, false⟩ : mgm_chunk)]).getD (A.length - 1) ⟨0, true⟩).m_inUse) = false := by
    rcases hprev with rfl | ⟨u, A'', rfl⟩
    · simp
    · have hg : ((A'' ++ [(⟨u, true⟩ : mgm_chunk)]) ++
          [(⟨s, false⟩ : mgm_chunk)]).getD ((A'' ++ [(⟨u, true⟩ : mgm_chunk)]).length - 1)
          ⟨0, true⟩ = ⟨u, true⟩ := by
        simpa using getD_append_cons A'' (⟨u, true⟩ : mgm_chunk) [⟨s, false⟩] ⟨0, true⟩
      rw [hg]
      simp
  simp only [release, hfind, release_at, h1, h2, hm]
  simp [h5, h6, length_append_cons]

/-- Release, case: no free predecessor, free successor (merge right). -/
theorem release_noMerge_mergeNext (p : buffer_pool) (A : List mgm_chunk) (s e n : Nat)
    (B' : List mgm_chunk) (fl : Bool)
    (hprev : A = [] ∨ ∃ u A'', A = A'' ++ [(⟨u, true⟩ : mgm_chunk)])
    (hA : ∀ a ∈ A, a.m_first ≠ s)
    (hp : p.m_chunks = A ++ (⟨s, fl⟩ : mgm_chunk) :: ⟨e, false⟩ :: B') :
    release p (handleAt s n) =
      { p with m_chunks := A ++ (⟨s, false⟩ : mgm_chunk) :: B' } := by
  have hfind : find_chunk p (handleAt s n) = some A.length :=
    find_chunk_split p A ⟨s, fl⟩ (⟨e, false⟩ :: B') n hp hA
  have h1 : p.m_chunks.getD A.length ⟨0, true⟩ = ⟨s, fl⟩ := by
    rw [hp]; exact getD_append_cons A ⟨s, fl⟩ (⟨e, false⟩ :: B') ⟨0, true⟩
  have h2 : p.m_chunks.set A.length ⟨s, false⟩ =
      A ++ (⟨s, false⟩ : mgm_chunk) :: ⟨e, false⟩ :: B' := by
    rw [hp]; exact set_append_cons A ⟨s, fl⟩ (⟨e, false⟩ :: B') ⟨s, false⟩
  have hm : (decide (A.length ≠ 0) &&
      !((A ++ (⟨s, false⟩ : mgm_chunk) :: ⟨e, false⟩ :: B').getD (A.length - 1)
        ⟨0, true⟩).m_inUse) = false := by
    rcases hprev with rfl | ⟨u, A'', rfl⟩
    · simp
    · have hg : ((A'' ++ [(⟨u, true⟩ : mgm_chunk)]) ++
          (⟨s, false⟩ : mgm_chunk) :: ⟨e, false⟩ :: B').getD
          ((A'' ++ [(⟨u, true⟩ : mgm_chunk)]).length - 1) ⟨0, true⟩ = ⟨u, true⟩ := by
        simpa using getD_append_cons A'' (⟨u, true⟩ : mgm_chunk)
          (⟨s, false⟩ :: ⟨e, false⟩ :: B') ⟨0, true⟩
      rw [hg]
      simp
  have hlen : ¬(A.length + 1 =
      (A ++ (⟨s, false⟩ : mgm_chunk) :: ⟨e, false⟩ :: B').length) := by
    rw [length_append_cons]
    simp
  have h6 : (A ++ (⟨s, false⟩ : mgm_chunk) :: ⟨e, false⟩ :: B').eraseIdx
      (A.length + 1) = A ++ (⟨s, false⟩ : mgm_chunk) :: B' :=
    eraseIdx_append_cons_one A ⟨s, false⟩ ⟨e, false⟩ B'
  simp only [release, hfind, release_at, h1, h2, hm]
  simp [hlen, getElem_append_cons_one, h6]

/-- Release, case: no free predecessor, in-use successor (mark only). -/
theorem release_noMerge_keep (p : buffer_pool) (A : List mgm_chunk) (s e n : Nat)
    (B' : List mgm_chunk) (fl : Bool)
    (hprev : A = [] ∨ ∃ u A'', A = A'' ++ [(⟨u, true⟩ : mgm_chunk)])
    (hA : ∀ a ∈ A, a.m_first ≠ s)
    (hp : p.m_chunks = A ++ (⟨s, fl⟩ : mgm_chunk) :: ⟨e, true⟩ :: B') :
    release p (handleAt s n) =
      { p with m_chunks := A ++ (⟨s, false⟩ : mgm_chunk) :: ⟨e, true⟩ :: B' } := by
  have hfind : find_chunk p (handleAt s n) = some A.length :=
    find_chunk_split p A ⟨s, fl⟩ (⟨e, true⟩ :: B') n hp hA
  have h1 : p.m_chunks.getD A.length ⟨0, true⟩ = ⟨s, fl⟩ := by
    rw [hp]; exact getD_append_cons A ⟨s, fl⟩ (⟨e, true⟩ :: B') ⟨0, true⟩
  have h2 : p.m_chunks.set A.length ⟨s, false⟩ =
      A ++ (⟨s, false⟩ : mgm_chunk) :: ⟨e, true⟩ :: B' := by
    rw [hp]; exact set_append_cons A ⟨s, fl⟩ (⟨e, true⟩ :: B') ⟨s, false⟩
  have hm : (decide (A.length ≠ 0) &&
      !((A ++ (⟨s, false⟩ : mgm_chunk) :: ⟨e, true⟩ :: B').getD (A.length - 1)
        ⟨0, true⟩).m_inUse) = false := by
    rcases hprev with rfl | ⟨u, A'', rfl⟩
    · simp
    · have hg : ((A'' ++ [(⟨u, true⟩ : mgm_chunk)]) ++
          (⟨s, false⟩ : mgm_chunk) :: ⟨e, true⟩ :: B').getD
          ((A'' ++ [(⟨u, true⟩ : mgm_chunk)]).length - 1) ⟨0, true⟩ = ⟨u, true⟩ := by
        simpa using getD_append_cons A'' (⟨u, true⟩ : mgm_chunk)
          (⟨s, false⟩ :: ⟨e, true⟩ :: B') ⟨0, true⟩
      rw [hg]
      simp
  have hlen : ¬(A.length + 1 =
      (A ++ (⟨s, false⟩ : mgm_chunk) :: ⟨e, true⟩ :: B').length) := by
    rw [length_append_cons]
    simp
  simp only [release, hfind, release_at, h1, h2, hm]
  simp [hlen, getElem_append_cons_one]

end buffer_pool

namespace buffer_pool

theorem findIdx?_first_eq (A : List mgm_chunk) (s : Nat) (fl : Bool) (B : List mgm_chunk)
    (hA : ∀ a ∈ A, a.m_first ≠ s) :
    List.findIdx? (fun c => c.m_first == s) (A ++ ⟨s, fl⟩ :: B) = some A.length := by
  simpa using findIdx?_append_cons (fun c => c.m_first == s) A ⟨s, fl⟩ B
    (fun a ha => by simpa using hA a ha) (by simp) 0

/-- Resize, case: the entry is last — relocate `m_last`. -/
theorem resize_tail (p : buffer_pool) (A : List mgm_chunk) (s m : Nat)
    (hA : ∀ a ∈ A, a.m_first ≠ s)
    (hp : p.m_chunks = A ++ [⟨s, true⟩]) :
    resize p ⟨⟨some s, m⟩, true⟩ = { p with m_last := s + m } := by
  have hfind : List.findIdx? (fun c => c.m_first == s) p.m_chunks = some A.length := by
    rw [hp]; exact findIdx?_first_eq A s true [] hA
  have hlen : ¬(A.length + 1 < p.m_chunks.length) := by
    rw [hp, length_append_cons]; simp
  simp only [resize, hfind, resize_at, hlen, if_false]

/-- Resize, case: in-use successor — insert a fresh free entry for the
freed suffix. -/
theorem resize_insert (p : buffer_pool) (A : List mgm_chunk) (s m e : Nat)
    (B' : List mgm_chunk)
    (hA : ∀ a ∈ A, a.m_first ≠ s)
    (hp : p.m_chunks = A ++ (⟨s, true⟩ : mgm_chunk) :: ⟨e, true⟩ :: B') :
    resize p ⟨⟨some s, m⟩, true⟩ =
      { p with m_chunks :=
          A ++ (⟨s, true⟩ : mgm_chunk) :: ⟨s + m, false⟩ :: ⟨e, true⟩ :: B' } := by
  have hfind : List.findIdx? (fun c => c.m_first == s) p.m_chunks = some A.length := by
    rw [hp]; exact findIdx?_first_eq A s true (⟨e, true⟩ :: B') hA
  have hlen : A.length + 1 < p.m_chunks.length := by
    rw [hp, length_append_cons]; simp
  have hg : p.m_chunks.getD (A.length + 1) ⟨0, true⟩ = ⟨e, true⟩ := by
    rw [hp]; exact getD_append_cons_one A ⟨s, true⟩ ⟨e, true⟩ B' ⟨0, true⟩
  have hi : insertAt p.m_chunks (A.length + 1) ⟨s + m, false⟩ =
      A ++ (⟨s, true⟩ : mgm_chunk) :: ⟨s + m, false⟩ :: ⟨e, true⟩ :: B' := by
    rw [hp]; exact insertAt_append_cons_one A ⟨s, true⟩ (⟨e, true⟩ :: B') ⟨s + m, false⟩
  simp only [resize, hfind, resize_at, hlen, if_true, hg, hi]

/-- Resize, case: free successor — extend it backward over the freed
suffix. -/
theorem resize_extend (p : buffer_pool) (A : List mgm_chunk) (s m e : Nat)
    (B' : List mgm_chunk)
    (hA : ∀ a ∈ A, a.m_first ≠ s)
    (hp : p.m_chunks = A ++ (⟨s, true⟩ : mgm_chunk) :: ⟨e, false⟩ :: B') :
    resize p ⟨⟨some s, m⟩, true⟩ =
      { p with m_chunks := A ++ (⟨s, true⟩ : mgm_chunk) :: ⟨s + m, false⟩ :: B' } := by
  have hfind : List.findIdx? (fun c => c.m_first == s) p.m_chunks = some A.length := by
    rw [hp]; exact findIdx?_first_eq A s true (⟨e, false⟩ :: B') hA
  have hlen : A.length + 1 < p.m_chunks.length := by
    rw [hp, length_append_cons]; simp
  have hg : p.m_chunks.getD (A.length + 1) ⟨0, true⟩ = ⟨e, false⟩ := by
    rw [hp]; exact getD_append_cons_one A ⟨s, true⟩ ⟨e, false⟩ B' ⟨0, true⟩
  have hs : p.m_chunks.set (A.length + 1) ⟨s + m, false⟩ =
      A ++ (⟨s, true⟩ : mgm_chunk) :: ⟨s + m, false⟩ :: B' := by
    rw [hp]; exact set_append_cons_one A ⟨s, true⟩ ⟨e, false⟩ B' ⟨s + m, false⟩
  simp only [resize, hfind, resize_at, hlen, if_true, hg, hs]
  simp

/-- Request, failure/append path selection. -/
theorem request_eq_fresh (p : buffer_pool) (n : Nat)
    (hnone : findLastIdx?
      (fun c => !c.m_inUse && decide (n ≤ chunk_size p.m_chunks p.m_last c))
      p.m_chunks = none) :
    request p n = request_fresh p n := by
  simp only [request, hnone]

theorem request_eq_reuse (p : buffer_pool) (n i : Nat)
    (hsome : findLastIdx?
      (fun c => !c.m_inUse && decide (n ≤ chunk_size p.m_chunks p.m_last c))
      p.m_chunks = some i) :
    request p n = request_reuse p n i := by
  simp only [request, hsome]

theorem request_fresh_ok (p : buffer_pool) (n : Nat)
    (h : ¬(p.m_memorySize - p.m_last < n)) :
    request_fresh p n = (some ⟨⟨some p.m_last, n⟩, true⟩,
      { p with m_chunks := p.m_chunks ++ [⟨p.m_last, true⟩],
               m_last := p.m_last + n }) := by
  simp only [request_fresh, h, if_false]

/-- Request reuse at a decomposed position, exact fit. -/
theorem request_reuse_exact (p : buffer_pool) (n b : Nat) (A B : List mgm_chunk) (fl : Bool)
    (hA : ∀ a ∈ A, a.m_first ≠ b)
    (hp : p.m_chunks = A ++ (⟨b, fl⟩ : mgm_chunk) :: B)
    (hsz : chunk_size (A ++ (⟨b, true⟩ : mgm_chunk) :: B) p.m_last ⟨b, true⟩ = n) :
    request_reuse p n A.length = (some ⟨⟨some b, n⟩, true⟩,
      { p with m_chunks := A ++ (⟨b, true⟩ : mgm_chunk) :: B }) := by
  have hg : p.m_chunks.getD A.length ⟨0, true⟩ = ⟨b, fl⟩ := by
    rw [hp]; exact getD_append_cons A ⟨b, fl⟩ B ⟨0, true⟩
  have hs : p.m_chunks.set A.length ⟨b, true⟩ =
      A ++ (⟨b, true⟩ : mgm_chunk) :: B := by
    rw [hp]; exact set_append_cons A ⟨b, fl⟩ B ⟨b, true⟩
  simp only [request_reuse, hg, hs, hsz]
  simp

/-- Request reuse at a decomposed position, split. -/
theorem request_reuse_split (p : buffer_pool) (n b : Nat) (A B : List mgm_chunk) (fl : Bool)
    (hA : ∀ a ∈ A, a.m_first ≠ b)
    (hp : p.m_chunks = A ++ (⟨b, fl⟩ : mgm_chunk) :: B)
    (hsz : chunk_size (A ++ (⟨b, true⟩ : mgm_chunk) :: B) p.m_last ⟨b, true⟩ ≠ n) :
    request_reuse p n A.length = (some ⟨⟨some b, n⟩, true⟩,
      { p with m_chunks := A ++ (⟨b, true⟩ : mgm_chunk) :: ⟨b + n, false⟩ :: B }) := by
  have hg : p.m_chunks.getD A.length ⟨0, true⟩ = ⟨b, fl⟩ := by
    rw [hp]; exact getD_append_cons A ⟨b, fl⟩ B ⟨0, true⟩
  have hs : p.m_chunks.set A.length ⟨b, true⟩ =
      A ++ (⟨b, true⟩ : mgm_chunk) :: B := by
    rw [hp]; exact set_append_cons A ⟨b, fl⟩ B ⟨b, true⟩
  have hi : insertAt (A ++ (⟨b, true⟩ : mgm_chunk) :: B) (A.length + 1) ⟨b + n, false⟩ =
      A ++ (⟨b, true⟩ : mgm_chunk) :: ⟨b + n, false⟩ :: B :=
    insertAt_append_cons_one A ⟨b, true⟩ B ⟨b + n, false⟩
  simp only [request_reuse, hg, hs, hsz, hi]
  simp [hsz]

end buffer_pool

/-! ## The segment-list invariant is preserved by every operation -/

namespace buffer_pool

theorem getLast?_append_cons (A : List mgm_chunk) (c : mgm_chunk) (B : List mgm_chunk) :
    (A ++ c :: B).getLast? = (c :: B).getLast? := by
  induction A with
  | nil => rfl
  | cons a as ih =>
    cases h : as ++ c :: B with
    | nil => exact absurd h (by simp)
    | cons y ys =>
      rw [List.cons_append, h, List.getLast?_cons_cons, ← h, ih]

/-- Decompose the segment list at a live (in-use) entry; distinctness of the
prefix starts comes from sortedness. -/
theorem live_split (p : buffer_pool) (s : Nat) (hs : sorted_starts p)
    (h : live_at p s) :
    ∃ A B, p.m_chunks = A ++ (⟨s, true⟩ : mgm_chunk) :: B ∧
      ∀ a ∈ A, a.m_first ≠ s := by
  obtain ⟨i, c, hc, hfirst, huse⟩ := h
  have hceq : c = ⟨s, true⟩ := by
    cases c
    simp_all
  subst hceq
  obtain ⟨A, B, hp, -⟩ := get?_eq_some_split hc
  refine ⟨A, B, hp, ?_⟩
  intro a ha hcon
  have hsorted := hs
  unfold sorted_starts at hsorted
  rw [hp, List.map_append, List.map_cons, List.pairwise_append] at hsorted
  have hlt := hsorted.2.2 a.m_first (List.mem_map_of_mem _ ha) s (by simp)
  omega

/-- The facts delivered by the invariant at a decomposition point. -/
theorem inv_split_facts (p : buffer_pool) (A : List mgm_chunk) (c : mgm_chunk)
    (B : List mgm_chunk) (hInv : Inv p) (hp : p.m_chunks = A ++ c :: B) :
    List.Pairwise (· < ·) (A.map mgm_chunk.m_first) ∧
    List.Pairwise (· < ·) (B.map mgm_chunk.m_first) ∧
    (∀ a ∈ A, a.m_first < c.m_first) ∧
    (∀ b ∈ B, c.m_first < b.m_first) ∧
    (∀ a ∈ A, ∀ b ∈ B, a.m_first < b.m_first) ∧
    List.Chain' (fun a b => a.m_inUse = true ∨ b.m_inUse = true) A ∧
    List.Chain' (fun a b => a.m_inUse = true ∨ b.m_inUse = true) (c :: B) ∧
    (∀ x, A.getLast? = some x → x.m_inUse = true ∨ c.m_inUse = true) ∧
    (∀ x, (c :: B).getLast? = some x → x.m_inUse = true) ∧
    (∀ a ∈ A, a.m_first < p.m_last) ∧ c.m_first < p.m_last ∧
    (∀ b ∈ B, b.m_first < p.m_last) := by
  obtain ⟨hsorted, hadj, hlast, hbelow⟩ := hInv
  unfold sorted_starts at hsorted
  unfold no_adjacent_free at hadj
  unfold last_in_use at hlast
  unfold starts_below at hbelow
  rw [hp, List.map_append, List.map_cons, List.pairwise_append] at hsorted
  rw [hp, List.chain'_append] at hadj
  rw [hp] at hlast hbelow
  obtain ⟨sA, sCB, sCross⟩ := hsorted
  rw [List.pairwise_cons] at sCB
  refine ⟨sA, sCB.2, ?_, ?_, ?_, hadj.1, hadj.2.1, ?_, ?_, ?_, ?_, ?_⟩
  · intro a ha
    exact sCross a.m_first (List.mem_map_of_mem _ ha) c.m_first (by simp)
  · intro b hb
    exact sCB.1 b.m_first (List.mem_map_of_mem _ hb)
  · intro a ha b hb
    exact sCross a.m_first (List.mem_map_of_mem _ ha) b.m_first
      (by simp [List.mem_map_of_mem _ hb])
  · intro x hx
    have := hadj.2.2 x hx
    have hh := this c (by simp)
    exact hh
  · intro x hx
    exact hlast x (by rw [getLast?_append_cons]; exact hx)
  · intro a ha
    exact hbelow a (by simp [ha])
  · exact hbelow c (by simp)
  · intro b hb
    exact hbelow b (by simp [hb])

end buffer_pool

namespace buffer_pool

/-- The adjacency relation of `no_adjacent_free`. -/
def adjR (a b : mgm_chunk) : Prop := a.m_inUse = true ∨ b.m_inUse = true

theorem inv_release_noMerge (p : buffer_pool) (A B : List mgm_chunk) (s n : Nat)
    (hInv : Inv p) (hp : p.m_chunks = A ++ (⟨s, true⟩ : mgm_chunk) :: B)
    (hA : ∀ a ∈ A, a.m_first ≠ s)
    (hprev : A = [] ∨ ∃ u A'', A = A'' ++ [(⟨u, true⟩ : mgm_chunk)]) :
    Inv (release p (handleAt s n)) := by
  obtain ⟨sA, sB, hAs, hsB, hAB, cA, cCB, linkA, lastCB, bA, bs, bB⟩ :=
    inv_split_facts p A ⟨s, true⟩ B hInv hp
  have hAlast : ∀ x, A.getLast? = some x → x.m_inUse = true := by
    intro x hx
    rcases hprev with rfl | ⟨u, A'', rfl⟩
    · simp at hx
    · rw [getLast?_append_cons A'' ⟨u, true⟩ []] at hx
      simp only [List.getLast?_singleton, Option.some_inj] at hx
      rw [← hx]
  rcases B with _ | ⟨⟨e, fe⟩, B'⟩
  · -- released entry is last: tail collapse
    rw [release_noMerge_collapse p A s n true hprev hA hp]
    refine ⟨?_, ?_, ?_, ?_⟩
    · exact sA
    · exact cA
    · intro x hx
      exact hAlast x hx
    · intro c hc
      exact hAs c hc
  · cases fe
    · -- free successor: absorb it
      rw [release_noMerge_mergeNext p A s e n B' true hprev hA hp]
      have horig : List.Pairwise (· < ·)
          (A.map mgm_chunk.m_first ++ s :: e :: B'.map mgm_chunk.m_first) := by
        have h := hInv.1
        unfold sorted_starts at h
        rw [hp] at h
        simpa using h
      refine ⟨?_, ?_, ?_, ?_⟩
      · unfold sorted_starts
        simp only [List.map_append, List.map_cons]
        exact List.Pairwise.sublist
          (List.Sublist.append_left
            (List.Sublist.cons₂ s (List.sublist_cons_self e _)) _) horig
      · unfold no_adjacent_free
        rw [List.chain'_append]
        refine ⟨cA, ?_, ?_⟩
        · rw [List.chain'_cons']
          constructor
          · intro y hy
            right
            have h1 := (List.chain'_cons.1 cCB).2
            have h2 := (List.chain'_cons'.1 h1).1 y hy
            rcases h2 with h2 | h2
            · simp at h2
            · exact h2
          · exact (List.chain'_cons'.1 (List.chain'_cons.1 cCB).2).2
        · intro x hx y hy
          simp only [List.head?_cons, Option.mem_def, Option.some_inj] at hy
          left
          exact hAlast x hx
      · intro x hx
        rw [getLast?_append_cons] at hx
        cases B' with
        | nil =>
          exact absurd (lastCB ⟨e, false⟩ (by simp)) (by simp)
        | cons b₀ Bt =>
          rw [List.getLast?_cons_cons] at hx
          exact lastCB x (by rw [List.getLast?_cons_cons, List.getLast?_cons_cons]; exact hx)
      · intro c hc
        rcases List.mem_append.1 hc with hc | hc
        · exact bA c hc
        · rcases List.mem_cons.1 hc with rfl | hc
          · exact bs
          · exact bB c (List.mem_cons_of_mem _ hc)
    · -- in-use successor: only mark free
      rw [release_noMerge_keep p A s e n B' true hprev hA hp]
      refine ⟨?_, ?_, ?_, ?_⟩
      · unfold sorted_starts
        have h := hInv.1
        unfold sorted_starts at h
        rw [hp] at h
        simpa using h
      · unfold no_adjacent_free
        rw [List.chain'_append]
        refine ⟨cA, ?_, ?_⟩
        · rw [List.chain'_cons]
          exact ⟨Or.inr rfl, (List.chain'_cons.1 cCB).2⟩
        · intro x hx y hy
          simp only [List.head?_cons, Option.mem_def, Option.some_inj] at hy
          left
          exact hAlast x hx
      · intro x hx
        rw [getLast?_append_cons, List.getLast?_cons_cons] at hx
        exact lastCB x (by rw [List.getLast?_cons_cons]; exact hx)
      · intro c hc
        rcases List.mem_append.1 hc with hc | hc
        · exact bA c hc
        · rcases List.mem_cons.1 hc with rfl | hc
          · exact bs
          · exact bB c hc

end buffer_pool

namespace buffer_pool

theorem inv_release_merge (p : buffer_pool) (A₀ B : List mgm_chunk) (t s n : Nat)
    (hInv : Inv p)
    (hp : p.m_chunks = A₀ ++ (⟨t, false⟩ : mgm_chunk) :: ⟨s, true⟩ :: B)
    (hA : ∀ a ∈ A₀ ++ [(⟨t, false⟩ : mgm_chunk)], a.m_first ≠ s) :
    Inv (release p (handleAt s n)) := by
  obtain ⟨sA, sB, hAs, hsB, hAB, cA, cCB, linkA, lastCB, bA, bs, bB⟩ :=
    inv_split_facts p (A₀ ++ [⟨t, false⟩]) ⟨s, true⟩ B hInv (by rw [hp]; simp)
  have cA₀ : List.Chain' (fun a b => a.m_inUse = true ∨ b.m_inUse = true) A₀ :=
    (List.chain'_append.1 cA).1
  have hA₀last : ∀ x, A₀.getLast? = some x → x.m_inUse = true := by
    intro x hx
    have h := (List.chain'_append.1 cA).2.2 x hx ⟨t, false⟩ (by simp)
    rcases h with h | h
    · exact h
    · simp at h
  have hA₀t : ∀ c ∈ A₀, c.m_first < t := by
    have h := sA
    rw [List.map_append, List.pairwise_append] at h
    intro c hc
    simpa using h.2.2 c.m_first (List.mem_map_of_mem _ hc) t (by simp)
  have horig : List.Pairwise (· < ·)
      (A₀.map mgm_chunk.m_first ++ t :: s :: B.map mgm_chunk.m_first) := by
    have h := hInv.1
    unfold sorted_starts at h
    rw [hp] at h
    simpa using h
  rcases B with _ | ⟨⟨e, fe⟩, B'⟩
  · -- merged entry is last: tail collapse to t
    rw [release_merge_collapse p A₀ t s n true hA hp]
    refine ⟨?_, ?_, ?_, ?_⟩
    · unfold sorted_starts
      have h := sA
      rw [List.map_append] at h
      exact List.Pairwise.sublist (List.sublist_append_left _ _) h
    · exact cA₀
    · intro x hx
      exact hA₀last x hx
    · intro c hc
      exact hA₀t c hc
  · cases fe
    · -- free successor: double merge
      rw [release_merge_mergeNext p A₀ t s e n B' true hA hp]
      refine ⟨?_, ?_, ?_, ?_⟩
      · unfold sorted_starts
        simp only [List.map_append, List.map_cons]
        refine List.Pairwise.sublist ?_ horig
        refine List.Sublist.append_left (List.Sublist.cons₂ t ?_) _
        exact ((List.sublist_cons_self e _).trans (List.sublist_cons_self s _))
      · unfold no_adjacent_free
        rw [List.chain'_append]
        refine ⟨cA₀, ?_, ?_⟩
        · rw [List.chain'_cons']
          constructor
          · intro y hy
            right
            have h1 := (List.chain'_cons.1 cCB).2
            have h2 := (List.chain'_cons'.1 h1).1 y hy
            rcases h2 with h2 | h2
            · simp at h2
            · exact h2
          · exact (List.chain'_cons'.1 (List.chain'_cons.1 cCB).2).2
        · intro x hx y hy
          simp only [List.head?_cons, Option.mem_def, Option.some_inj] at hy
          left
          exact hA₀last x hx
      · intro x hx
        rw [getLast?_append_cons] at hx
        cases B' with
        | nil =>
          exact absurd (lastCB ⟨e, false⟩ (by simp)) (by simp)
        | cons b₀ Bt =>
          rw [List.getLast?_cons_cons] at hx
          exact lastCB x (by rw [List.getLast?_cons_cons, List.getLast?_cons_cons]; exact hx)
      · intro c hc
        rcases List.mem_append.1 hc with hc | hc
        · exact bA c (by simp [hc])
        · rcases List.mem_cons.1 hc with rfl | hc
          · exact bA _ (by simp)
          · exact bB c (List.mem_cons_of_mem _ hc)
    · -- in-use successor: single merge
      rw [release_merge_keep p A₀ t s e n B' true hA hp]
      refine ⟨?_, ?_, ?_, ?_⟩
      · unfold sorted_starts
        simp only [List.map_append, List.map_cons]
        refine List.Pairwise.sublist ?_ horig
        exact List.Sublist.append_left
          (List.Sublist.cons₂ t (List.sublist_cons_self s _)) _
      · unfold no_adjacent_free
        rw [List.chain'_append]
        refine ⟨cA₀, ?_, ?_⟩
        · rw [List.chain'_cons]
          exact ⟨Or.inr rfl, (List.chain'_cons.1 cCB).2⟩
        · intro x hx y hy
          simp only [List.head?_cons, Option.mem_def, Option.some_inj] at hy
          left
          exact hA₀last x hx
      · intro x hx
        rw [getLast?_append_cons, List.getLast?_cons_cons] at hx
        exact lastCB x (by rw [List.getLast?_cons_cons]; exact hx)
      · intro c hc
        rcases List.mem_append.1 hc with hc | hc
        · exact bA c (by simp [hc])
        · rcases List.mem_cons.1 hc with rfl | hc
          · exact bA _ (by simp)
          · exact bB c hc

/-- `release` of a live entry preserves the invariant. -/
theorem inv_release (p : buffer_pool) (s n : Nat) (hInv : Inv p) (hlive : live_at p s) :
    Inv (release p (handleAt s n)) := by
  obtain ⟨A, B, hp, hA⟩ := live_split p s hInv.1 hlive
  rcases List.eq_nil_or_concat A with rfl | ⟨A₀, a₀, hAc⟩
  · exact inv_release_noMerge p [] B s n hInv hp hA (Or.inl rfl)
  · rw [List.concat_eq_append] at hAc
    obtain ⟨t, fl⟩ := a₀
    cases fl
    · subst hAc
      exact inv_release_merge p A₀ B t s n hInv (by simpa using hp) hA
    · subst hAc
      exact inv_release_noMerge p (A₀ ++ [⟨t, true⟩]) B s n hInv hp hA
        (Or.inr ⟨t, A₀, rfl⟩)

end buffer_pool

namespace buffer_pool

/-- `Chunk::shrink` of a live entry to a positive size preserves the
invariant. -/
theorem inv_shrink (p : buffer_pool) (s n newSize : Nat) (hInv : Inv p)
    (hlive : live_at p s)
    (hn : n = chunk_size p.m_chunks p.m_last ⟨s, true⟩)
    (hpos : 0 < newSize) (hle : newSize ≤ n) :
    Inv (Chunk.shrink p (handleAt s n) newSize).2 := by
  by_cases heq : newSize = n
  · have h2 : (Chunk.shrink p (handleAt s n) newSize).2 = p := by
      simp [Chunk.shrink, handleAt, heq]
    rw [h2]
    exact hInv
  · have h2 : (Chunk.shrink p (handleAt s n) newSize).2 =
        resize p ⟨⟨some s, newSize⟩, true⟩ := by
      simp [Chunk.shrink, handleAt, heq]
    rw [h2]
    obtain ⟨A, B, hp, hA⟩ := live_split p s hInv.1 hlive
    obtain ⟨sA, sB, hAs, hsB, hAB, cA, cCB, linkA, lastCB, bA, bs, bB⟩ :=
      inv_split_facts p A ⟨s, true⟩ B hInv hp
    have hsz : n = (match B.head? with
        | some d => d.m_first - s
        | none => p.m_last - s) := by
      rw [hn, hp]
      exact chunk_size_split A ⟨s, true⟩ B p.m_last hA
    have hlt : newSize < n := Nat.lt_of_le_of_ne hle heq
    rcases B with _ | ⟨⟨e, fe⟩, B'⟩
    · -- last entry: retract m_last
      rw [resize_tail p A s newSize hA hp]
      refine ⟨hInv.1, hInv.2.1, hInv.2.2.1, ?_⟩
      intro c hc
      rw [hp] at hc
      rcases List.mem_append.1 hc with hc | hc
      · have := hAs c hc
        simp only [] at this ⊢
        omega
      · rcases List.mem_cons.1 hc with rfl | hc
        · simp only []
          omega
        · simp at hc
    · have hse : s < e := by simpa using hsB ⟨e, fe⟩ (by simp)
      have hn_eq : n = e - s := by simpa using hsz
      have hme : s + newSize < e := by omega
      have hsB' : ∀ b ∈ B', s < b.m_first := fun b hb =>
        hsB b (List.mem_cons_of_mem _ hb)
      have heB' : ∀ y ∈ B'.map mgm_chunk.m_first, e < y := by
        have h := sB
        rw [List.map_cons, List.pairwise_cons] at h
        exact h.1
      have sB' : List.Pairwise (· < ·) (B'.map mgm_chunk.m_first) := by
        have h := sB
        rw [List.map_cons, List.pairwise_cons] at h
        exact h.2
      have hcross : ∀ x ∈ A.map mgm_chunk.m_first,
          ∀ y ∈ (s : Nat) :: (s + newSize) :: B'.map mgm_chunk.m_first, x < y := by
        intro x hx y hy
        obtain ⟨a, ha, rfl⟩ := List.mem_map.1 hx
        have h1 := hAs a ha
        simp only [] at h1
        rcases List.mem_cons.1 hy with rfl | hy
        · exact h1
        · rcases List.mem_cons.1 hy with rfl | hy
          · omega
          · obtain ⟨b, hb, rfl⟩ := List.mem_map.1 hy
            have := hsB' b hb
            omega
      have hmidB' : ∀ y ∈ B'.map mgm_chunk.m_first, s + newSize < y := by
        intro y hy
        have := heB' y hy
        omega
      have hsorted_mid : List.Pairwise (· < ·)
          ((s : Nat) :: (s + newSize) :: B'.map mgm_chunk.m_first) := by
        rw [List.pairwise_cons]
        constructor
        · intro y hy
          rcases List.mem_cons.1 hy with rfl | hy
          · omega
          · obtain ⟨b, hb, rfl⟩ := List.mem_map.1 hy
            have := hsB' b hb
            omega
        · rw [List.pairwise_cons]
          exact ⟨hmidB', sB'⟩
      cases fe
      · -- free successor: extend it backward
        rw [resize_extend p A s newSize e B' hA hp]
        refine ⟨?_, ?_, ?_, ?_⟩
        · unfold sorted_starts
          simp only [List.map_append, List.map_cons]
          rw [List.pairwise_append]
          exact ⟨sA, hsorted_mid, hcross⟩
        · unfold no_adjacent_free
          rw [List.chain'_append]
          refine ⟨cA, ?_, ?_⟩
          · rw [List.chain'_cons]
            refine ⟨Or.inl rfl, ?_⟩
            rw [List.chain'_cons']
            constructor
            · intro y hy
              right
              have h1 := (List.chain'_cons.1 cCB).2
              have h2 := (List.chain'_cons'.1 h1).1 y hy
              rcases h2 with h2 | h2
              · simp at h2
              · exact h2
            · exact (List.chain'_cons'.1 (List.chain'_cons.1 cCB).2).2
          · intro x hx y hy
            simp only [List.head?_cons, Option.mem_def, Option.some_inj] at hy
            subst hy
            right
            rfl
        · intro x hx
          rw [getLast?_append_cons, List.getLast?_cons_cons] at hx
          cases B' with
          | nil =>
            exact absurd (lastCB ⟨e, false⟩ (by simp)) (by simp)
          | cons b₀ Bt =>
            rw [List.getLast?_cons_cons] at hx
            exact lastCB x
              (by rw [List.getLast?_cons_cons, List.getLast?_cons_cons]; exact hx)
        · intro c hc
          have hel : e < p.m_last := by simpa using bB ⟨e, false⟩ (by simp)
          rcases List.mem_append.1 hc with hc | hc
          · exact bA c hc
          · rcases List.mem_cons.1 hc with rfl | hc
            · exact bs
            · rcases List.mem_cons.1 hc with rfl | hc
              · simp only []
                omega
              · exact bB c (List.mem_cons_of_mem _ hc)
      · -- in-use successor: insert a fresh free entry
        rw [resize_insert p A s newSize e B' hA hp]
        refine ⟨?_, ?_, ?_, ?_⟩
        · unfold sorted_starts
          simp only [List.map_append, List.map_cons]
          rw [List.pairwise_append]
          refine ⟨sA, ?_, ?_⟩
          · rw [List.pairwise_cons]
            constructor
            · intro y hy
              rcases List.mem_cons.1 hy with rfl | hy
              · omega
              · rcases List.mem_cons.1 hy with rfl | hy
                · omega
                · obtain ⟨b, hb, rfl⟩ := List.mem_map.1 hy
                  have := hsB' b hb
                  omega
            · rw [List.pairwise_cons]
              constructor
              · intro y hy
                rcases List.mem_cons.1 hy with rfl | hy
                · omega
                · obtain ⟨b, hb, rfl⟩ := List.mem_map.1 hy
                  have := heB' b.m_first (List.mem_map_of_mem _ hb)
                  omega
              · rw [List.pairwise_cons]
                exact ⟨heB', sB'⟩
          · intro x hx y hy
            obtain ⟨a, ha, rfl⟩ := List.mem_map.1 hx
            have h1 := hAs a ha
            simp only [] at h1
            rcases List.mem_cons.1 hy with rfl | hy
            · exact h1
            · rcases List.mem_cons.1 hy with rfl | hy
              · omega
              · rcases List.mem_cons.1 hy with rfl | hy
                · omega
                · obtain ⟨b, hb, rfl⟩ := List.mem_map.1 hy
                  have := hsB' b hb
                  omega
        · unfold no_adjacent_free
          rw [List.chain'_append]
          refine ⟨cA, ?_, ?_⟩
          · rw [List.chain'_cons]
            refine ⟨Or.inl rfl, ?_⟩
            rw [List.chain'_cons]
            exact ⟨Or.inr rfl, (List.chain'_cons.1 cCB).2⟩
          · intro x hx y hy
            simp only [List.head?_cons, Option.mem_def, Option.some_inj] at hy
            subst hy
            right
            rfl
        · intro x hx
          rw [getLast?_append_cons, List.getLast?_cons_cons,
            List.getLast?_cons_cons] at hx
          exact lastCB x (by rw [List.getLast?_cons_cons]; exact hx)
        · intro c hc
          have hel : e < p.m_last := by simpa using bB ⟨e, true⟩ (by simp)
          rcases List.mem_append.1 hc with hc | hc
          · exact bA c hc
          · rcases List.mem_cons.1 hc with rfl | hc
            · exact bs
            · rcases List.mem_cons.1 hc with rfl | hc
              · simp only []
                omega
              · rcases List.mem_cons.1 hc with rfl | hc
                · exact bB ⟨e, true⟩ (by simp)
                · exact bB c (List.mem_cons_of_mem _ hc)

end buffer_pool

namespace buffer_pool

/-- `request` preserves the invariant (whether it succeeds or fails). -/
theorem inv_request (p : buffer_pool) (n : Nat) (hInv : Inv p) (h0 : 0 < n) :
    Inv (request p n).2 := by
  cases hfind : findLastIdx?
      (fun c => !c.m_inUse && decide (n ≤ chunk_size p.m_chunks p.m_last c))
      p.m_chunks with
  | none =>
    rw [request_eq_fresh p n hfind]
    by_cases hfail : p.m_memorySize - p.m_last < n
    · have h : request_fresh p n = (none, p) := by
        simp [request_fresh, hfail]
      rw [h]
      exact hInv
    · rw [request_fresh_ok p n hfail]
      obtain ⟨hsorted, hadj, hlast, hbelow⟩ := hInv
      refine ⟨?_, ?_, ?_, ?_⟩
      · unfold sorted_starts at hsorted ⊢
        simp only [List.map_append, List.map_cons, List.map_nil]
        rw [List.pairwise_append]
        refine ⟨hsorted, by simp, ?_⟩
        intro x hx y hy
        simp only [List.mem_singleton] at hy
        subst hy
        obtain ⟨a, ha, rfl⟩ := List.mem_map.1 hx
        exact hbelow a ha
      · unfold no_adjacent_free at hadj ⊢
        rw [List.chain'_append]
        refine ⟨hadj, by simp, ?_⟩
        intro x hx y hy
        simp only [List.head?_cons, Option.mem_def, Option.some_inj] at hy
        subst hy
        right
        rfl
      · intro c hc
        rw [List.getLast?_concat] at hc
        cases hc
        rfl
      · intro c hc
        rcases List.mem_append.1 hc with hc | hc
        · have := hbelow c hc
          simp only []
          omega
        · rcases List.mem_cons.1 hc with rfl | hc
          · simp only []
            omega
          · simp at hc
  | some i =>
    rw [request_eq_reuse p n i hfind]
    obtain ⟨c, hci, hpred⟩ := findLastIdx?_eq_some hfind
    obtain ⟨b, fl⟩ := c
    simp only [Bool.and_eq_true, Bool.not_eq_true', decide_eq_true_eq] at hpred
    obtain ⟨hfl, hsize⟩ := hpred
    subst hfl
    obtain ⟨A, B, hp, hiA⟩ := get?_eq_some_split hci
    subst hiA
    obtain ⟨sA, sB, hAs, hsB, hAB, cA, cCB, linkA, lastCB, bA, bs, bB⟩ :=
      inv_split_facts p A ⟨b, false⟩ B hInv hp
    have hA : ∀ a ∈ A, a.m_first ≠ b := by
      intro a ha
      have := hAs a ha
      simp only [] at this
      omega
    -- the found entry is free, hence not last: B is nonempty
    rcases B with _ | ⟨⟨e, fe⟩, B'⟩
    · exact absurd (lastCB ⟨b, false⟩ (by simp)) (by simp)
    have hbe : b < e := by simpa using hsB ⟨e, fe⟩ (by simp)
    have hsz_orig : chunk_size p.m_chunks p.m_last ⟨b, false⟩ = e - b := by
      rw [hp]
      have h := chunk_size_split A ⟨b, false⟩ (⟨e, fe⟩ :: B') p.m_last hA
      simpa using h
    have hsz_new : chunk_size (A ++ (⟨b, true⟩ : mgm_chunk) :: ⟨e, fe⟩ :: B') p.m_last
        ⟨b, true⟩ = e - b := by
      have h := chunk_size_split A ⟨b, true⟩ (⟨e, fe⟩ :: B') p.m_last hA
      simpa using h
    have hne : n ≤ e - b := by
      rw [hsz_orig] at hsize
      exact hsize
    have hsB' : ∀ x ∈ B', b < x.m_first := fun x hx => by
      simpa using hsB x (List.mem_cons_of_mem _ hx)
    have heB' : ∀ y ∈ B'.map mgm_chunk.m_first, e < y := by
      have h := sB
      rw [List.map_cons, List.pairwise_cons] at h
      exact h.1
    have sB' : List.Pairwise (· < ·) (B'.map mgm_chunk.m_first) := by
      have h := sB
      rw [List.map_cons, List.pairwise_cons] at h
      exact h.2
    by_cases hex : chunk_size (A ++ (⟨b, true⟩ : mgm_chunk) :: ⟨e, fe⟩ :: B') p.m_last
        ⟨b, true⟩ = n
    · -- exact fit
      rw [request_reuse_exact p n b A (⟨e, fe⟩ :: B') false hA hp hex]
      refine ⟨?_, ?_, ?_, ?_⟩
      · unfold sorted_starts
        have h := hInv.1
        unfold sorted_starts at h
        rw [hp] at h
        simpa using h
      · unfold no_adjacent_free
        rw [List.chain'_append]
        refine ⟨cA, ?_, ?_⟩
        · rw [List.chain'_cons]
          exact ⟨Or.inl rfl, (List.chain'_cons.1 cCB).2⟩
        · intro x hx y hy
          simp only [List.head?_cons, Option.mem_def, Option.some_inj] at hy
          subst hy
          right
          rfl
      · intro x hx
        rw [getLast?_append_cons, List.getLast?_cons_cons] at hx
        exact lastCB x (by rw [List.getLast?_cons_cons]; exact hx)
      · intro c hc
        rcases List.mem_append.1 hc with hc | hc
        · exact bA c hc
        · rcases List.mem_cons.1 hc with rfl | hc
          · exact bs
          · exact bB c hc
    · -- split
      rw [request_reuse_split p n b A (⟨e, fe⟩ :: B') false hA hp hex]
      have hbn : b + n < e := by
        rw [hsz_new] at hex
        omega
      -- the entry after the found free one is in use
      have hfe : fe = true := by
        have h1 := (List.chain'_cons.1 cCB).1
        rcases h1 with h1 | h1
        · simp at h1
        · exact h1
      subst hfe
      refine ⟨?_, ?_, ?_, ?_⟩
      · unfold sorted_starts
        simp only [List.map_append, List.map_cons]
        rw [List.pairwise_append]
        refine ⟨sA, ?_, ?_⟩
        · rw [List.pairwise_cons]
          constructor
          · intro y hy
            rcases List.mem_cons.1 hy with rfl | hy
            · omega
            · rcases List.mem_cons.1 hy with rfl | hy
              · omega
              · obtain ⟨x, hx, rfl⟩ := List.mem_map.1 hy
                have := hsB' x hx
                omega
          · rw [List.pairwise_cons]
            constructor
            · intro y hy
              rcases List.mem_cons.1 hy with rfl | hy
              · omega
              · obtain ⟨x, hx, rfl⟩ := List.mem_map.1 hy
                have := heB' x.m_first (List.mem_map_of_mem _ hx)
                omega
            · rw [List.pairwise_cons]
              exact ⟨heB', sB'⟩
        · intro x hx y hy
          obtain ⟨a, ha, rfl⟩ := List.mem_map.1 hx
          have h1 := hAs a ha
          simp only [] at h1
          rcases List.mem_cons.1 hy with rfl | hy
          · exact h1
          · rcases List.mem_cons.1 hy with rfl | hy
            · omega
            · rcases List.mem_cons.1 hy with rfl | hy
              · omega
              · obtain ⟨x, hx2, rfl⟩ := List.mem_map.1 hy
                have := hsB' x hx2
                omega
      · unfold no_adjacent_free
        rw [List.chain'_append]
        refine ⟨cA, ?_, ?_⟩
        · rw [List.chain'_cons]
          refine ⟨Or.inl rfl, ?_⟩
          rw [List.chain'_cons]
          exact ⟨Or.inr rfl, (List.chain'_cons.1 cCB).2⟩
        · intro x hx y hy
          simp only [List.head?_cons, Option.mem_def, Option.some_inj] at hy
          subst hy
          right
          rfl
      · intro x hx
        rw [getLast?_append_cons, List.getLast?_cons_cons,
          List.getLast?_cons_cons] at hx
        exact lastCB x (by rw [List.getLast?_cons_cons]; exact hx)
      · intro c hc
        have hel : e < p.m_last := by simpa using bB ⟨e, true⟩ (by simp)
        rcases List.mem_append.1 hc with hc | hc
        · exact bA c hc
        · rcases List.mem_cons.1 hc with rfl | hc
          · exact bs
          · rcases List.mem_cons.1 hc with rfl | hc
            · simp only []
              omega
            · rcases List.mem_cons.1 hc with rfl | hc
              · exact bB ⟨e, true⟩ (by simp)
              · exact bB c (List.mem_cons_of_mem _ hc)

end buffer_pool

namespace buffer_pool

/-- Any single public call (with positive sizes) preserves the invariant. -/
theorem inv_step (p p' : buffer_pool) (hInv : Inv p) (h : Step p p') : Inv p' := by
  cases h with
  | request n h0 h1 => exact inv_request p n hInv h0
  | release s n hlive hn => exact inv_release p s n hInv hlive
  | shrink s n newSize hlive hn hpos hle =>
    exact inv_shrink p s n newSize hInv hlive hn hpos hle

/-- A freshly constructed pool satisfies the invariant. -/
theorem inv_fresh (N : Nat) : Inv (fresh N) := by
  refine ⟨?_, ?_, ?_, ?_⟩
  · simp [fresh, sorted_starts]
  · simp [fresh, no_adjacent_free]
  · intro c hc
    simp [fresh] at hc
  · intro c hc
    simp [fresh] at hc

/-- Every reachable pool state satisfies the invariant. -/
theorem reach_inv (N : Nat) (p : buffer_pool) (h : Reachable N p) : Inv p := by
  induction h with
  | refl => exact inv_fresh N
  | tail hsteps hstep ih => exact inv_step _ _ ih hstep

end buffer_pool

/-! ## The weak invariant: preserved even through shrink-to-zero

`SpecStep` admits `shrink` with `new_size = 0`, which duplicates a start
value (see `C1_counterexample_shrink_to_zero`), so the strict invariant
`Inv` is not maintained over `SpecStep`.  The weaker invariant below is:
starts are non-decreasing, no two adjacent entries are free, every start is
at most `m_last`, and the final entry is in use.  The key observation making
it inductive is that the `find`-first-based size computation assigns a
duplicated *free* entry the derived size 0 (its successor carries the same
start, by the ordering), so every operation that consults the size treats
such an entry as unusable and the cases that could break the invariant never
fire. -/

namespace buffer_pool

/-- Segment starts are non-decreasing: the weak ordering that survives
shrink-to-zero (which duplicates a start). -/
def nondecr_starts (p : buffer_pool) : Prop :=
  List.Pairwise (· ≤ ·) (p.m_chunks.map mgm_chunk.m_first)

/-- Every segment starts at or below the high-water mark `m_last`. -/
def starts_at_most (p : buffer_pool) : Prop :=
  ∀ c ∈ p.m_chunks, c.m_first ≤ p.m_last

/-- The weak well-formedness invariant, maintained by every operation even
when shrink-to-zero is allowed. -/
def WInv (p : buffer_pool) : Prop :=
  nondecr_starts p ∧ no_adjacent_free p ∧ last_in_use p ∧ starts_at_most p

theorem findIdx?_some_split {α} {pred : α → Bool} :
    ∀ (l : List α) (s k : Nat), List.findIdx? pred l s = some k →
      s ≤ k ∧ ∃ c, l.get? (k - s) = some c ∧ pred c = true ∧
        ∀ a ∈ l.take (k - s), pred a = false := by
  intro l
  induction l with
  | nil => intro s k h; simp [List.findIdx?] at h
  | cons a as ih =>
    intro s k h
    rw [List.findIdx?_cons] at h
    by_cases hp : pred a = true
    · rw [if_pos hp] at h
      have hk : s = k := by simpa using h
      subst hk
      refine ⟨Nat.le_refl s, a, ?_, hp, ?_⟩
      · rw [Nat.sub_self]
        rfl
      · intro x hx
        rw [Nat.sub_self] at hx
        simp at hx
    · rw [if_neg hp] at h
      obtain ⟨hs, c, hc, hpc, hT⟩ := ih (s + 1) k h
      have he : k - s = (k - (s + 1)) + 1 := by omega
      refine ⟨by omega, c, ?_, hpc, ?_⟩
      · rw [he]
        exact hc
      · intro x hx
        rw [he, List.take_succ_cons] at hx
        rcases List.mem_cons.1 hx with rfl | hx'
        · simpa using hp
        · exact hT x hx'

theorem findIdx?_eq_none_forall {α} {pred : α → Bool} :
    ∀ (l : List α) (s : Nat), List.findIdx? pred l s = none →
      ∀ a ∈ l, pred a = false := by
  intro l
  induction l with
  | nil => intro s _ a ha; simp at ha
  | cons a as ih =>
    intro s h x hx
    rw [List.findIdx?_cons] at h
    by_cases hp : pred a = true
    · rw [if_pos hp] at h
      simp at h
    · rw [if_neg hp] at h
      rcases List.mem_cons.1 hx with rfl | hx'
      · simpa using hp
      · exact ih (s + 1) h x hx'

theorem get?_append_lt {α} (A B : List α) (j : Nat) (h : j < A.length) :
    (A ++ B).get? j = A.get? j := by
  induction A generalizing j with
  | nil => simp at h
  | cons a as ih =>
    cases j with
    | zero => rfl
    | succ j' =>
      simp only [List.length_cons] at h
      exact ih j' (by omega)

theorem get?_append_cons_add {α} (A : List α) (c : α) (B : List α) (m : Nat) :
    (A ++ c :: B).get? (A.length + 1 + m) = B.get? m := by
  induction A with
  | nil =>
    simp only [List.nil_append, List.length_nil]
    rw [show 0 + 1 + m = m + 1 from by omega]
    rfl
  | cons a as ih =>
    simp only [List.cons_append, List.length_cons]
    rw [show as.length + 1 + 1 + m = (as.length + 1 + m) + 1 from by omega]
    exact ih

theorem map_pairwise_le_get? :
    ∀ (l : List mgm_chunk), List.Pairwise (· ≤ ·) (l.map mgm_chunk.m_first) →
    ∀ (i j : Nat) (x y : mgm_chunk), i < j →
      l.get? i = some x → l.get? j = some y → x.m_first ≤ y.m_first := by
  intro l
  induction l with
  | nil => intro _ i j x y _ hx _; simp at hx
  | cons a as ih =>
    intro h i j x y hij hx hy
    rw [List.map_cons, List.pairwise_cons] at h
    cases i with
    | zero =>
      have hxa : a = x := by simpa using hx
      subst hxa
      cases j with
      | zero => omega
      | succ m =>
        have hy' : as.get? m = some y := by simpa using hy
        exact h.1 y.m_first (List.mem_map_of_mem _ (List.get?_mem hy'))
    | succ i' =>
      cases j with
      | zero => omega
      | succ j' =>
        exact ih h.2 i' j' x y (by omega) (by simpa using hx) (by simpa using hy)

/-- The derived-size computation on a decomposition at the first occurrence
of the start `s`; the flag of that entry is arbitrary (the lookup matches on
the start only). -/
theorem chunk_size_first_split (A : List mgm_chunk) (s : Nat) (flk : Bool)
    (B : List mgm_chunk) (last : Nat) (hA : ∀ a ∈ A, a.m_first ≠ s) :
    chunk_size (A ++ (⟨s, flk⟩ : mgm_chunk) :: B) last ⟨s, true⟩ =
      (match B.head? with
      | some d => d.m_first - s
      | none => last - s) := by
  have hfind : List.findIdx?
      (fun e => e.m_first == (⟨s, true⟩ : mgm_chunk).m_first)
      (A ++ (⟨s, flk⟩ : mgm_chunk) :: B) = some A.length := by
    simpa using findIdx?_append_cons
      (fun e => e.m_first == (⟨s, true⟩ : mgm_chunk).m_first) A ⟨s, flk⟩ B
      (fun a ha => by simpa using hA a ha) (by simp) 0
  simp only [chunk_size, hfind, get?_append_cons_succ]
  cases B with
  | nil => rfl
  | cons d B' => rfl

/-- `chunk_size` either computes 0 (start not present) or looks the start
up at its *first* occurrence, whatever that entry's flag. -/
theorem chunk_size_eq (L : List mgm_chunk) (last : Nat) (c : mgm_chunk) :
    chunk_size L last c = 0 ∨
    ∃ A flk B, L = A ++ (⟨c.m_first, flk⟩ : mgm_chunk) :: B ∧
      (∀ a ∈ A, a.m_first ≠ c.m_first) ∧
      chunk_size L last c = (match B.head? with
        | some d => d.m_first - c.m_first
        | none => last - c.m_first) := by
  cases hfi : List.findIdx? (fun e => e.m_first == c.m_first) L with
  | none =>
    left
    simp [chunk_size, hfi]
  | some k =>
    right
    have hsp := findIdx?_some_split L 0 k hfi
    simp only [Nat.sub_zero] at hsp
    obtain ⟨-, c0, hc0, hc0p, htake⟩ := hsp
    obtain ⟨f, u⟩ := c0
    have hf : f = c.m_first := by simpa using hc0p
    subst hf
    obtain ⟨A, B, hL, hlen⟩ := get?_eq_some_split hc0
    have hA : ∀ a ∈ A, a.m_first ≠ c.m_first := by
      intro a ha
      have hTk : L.take k = A := by rw [hL, ← hlen, List.take_left]
      have := htake a (by rw [hTk]; exact ha)
      simpa using this
    refine ⟨A, u, B, hL, hA, ?_⟩
    have hfi2 : List.findIdx? (fun e => e.m_first == c.m_first) L =
        some A.length := by
      rw [hlen]
      exact hfi
    simp only [chunk_size, hfi2]
    rw [hL, get?_append_cons_succ]
    cases B with
    | nil => rfl
    | cons d B' => rfl

end buffer_pool

namespace buffer_pool

/-- The facts delivered by the weak invariant at a decomposition point. -/
theorem winv_split_facts (p : buffer_pool) (A : List mgm_chunk) (c : mgm_chunk)
    (B : List mgm_chunk) (hW : WInv p) (hp : p.m_chunks = A ++ c :: B) :
    List.Pairwise (· ≤ ·) (A.map mgm_chunk.m_first) ∧
    List.Pairwise (· ≤ ·) (B.map mgm_chunk.m_first) ∧
    (∀ a ∈ A, a.m_first ≤ c.m_first) ∧
    (∀ b ∈ B, c.m_first ≤ b.m_first) ∧
    (∀ a ∈ A, ∀ b ∈ B, a.m_first ≤ b.m_first) ∧
    List.Chain' (fun a b => a.m_inUse = true ∨ b.m_inUse = true) A ∧
    List.Chain' (fun a b => a.m_inUse = true ∨ b.m_inUse = true) (c :: B) ∧
    (∀ x, A.getLast? = some x → x.m_inUse = true ∨ c.m_inUse = true) ∧
    (∀ x, (c :: B).getLast? = some x → x.m_inUse = true) ∧
    (∀ a ∈ A, a.m_first ≤ p.m_last) ∧ c.m_first ≤ p.m_last ∧
    (∀ b ∈ B, b.m_first ≤ p.m_last) := by
  obtain ⟨hnd, hadj, hlast, hbound⟩ := hW
  unfold nondecr_starts at hnd
  unfold no_adjacent_free at hadj
  unfold last_in_use at hlast
  unfold starts_at_most at hbound
  rw [hp, List.map_append, List.map_cons, List.pairwise_append] at hnd
  rw [hp, List.chain'_append] at hadj
  rw [hp] at hlast hbound
  obtain ⟨sA, sCB, sCross⟩ := hnd
  rw [List.pairwise_cons] at sCB
  refine ⟨sA, sCB.2, ?_, ?_, ?_, hadj.1, hadj.2.1, ?_, ?_, ?_, ?_, ?_⟩
  · intro a ha
    exact sCross a.m_first (List.mem_map_of_mem _ ha) c.m_first (by simp)
  · intro b hb
    exact sCB.1 b.m_first (List.mem_map_of_mem _ hb)
  · intro a ha b hb
    exact sCross a.m_first (List.mem_map_of_mem _ ha) b.m_first
      (by simp [List.mem_map_of_mem _ hb])
  · intro x hx
    have := hadj.2.2 x hx
    have hh := this c (by simp)
    exact hh
  · intro x hx
    exact hlast x (by rw [getLast?_append_cons]; exact hx)
  · intro a ha
    exact hbound a (by simp [ha])
  · exact hbound c (by simp)
  · intro b hb
    exact hbound b (by simp [hb])

end buffer_pool

namespace buffer_pool

theorem winv_release_noMerge (p : buffer_pool) (A B : List mgm_chunk) (s n : Nat)
    (fl : Bool) (hW : WInv p)
    (hp : p.m_chunks = A ++ (⟨s, fl⟩ : mgm_chunk) :: B)
    (hA : ∀ a ∈ A, a.m_first ≠ s)
    (hprev : A = [] ∨ ∃ u A'', A = A'' ++ [(⟨u, true⟩ : mgm_chunk)]) :
    WInv (release p (handleAt s n)) := by
  obtain ⟨pA, pB, wAs, wsB, wAB, cA, cCB, linkA, lastCB, bA, bs, bB⟩ :=
    winv_split_facts p A ⟨s, fl⟩ B hW hp
  have hAlast : ∀ x, A.getLast? = some x → x.m_inUse = true := by
    intro x hx
    rcases hprev with rfl | ⟨u, A'', rfl⟩
    · simp at hx
    · rw [getLast?_append_cons A'' ⟨u, true⟩ []] at hx
      simp only [List.getLast?_singleton, Option.some_inj] at hx
      rw [← hx]
  rcases B with _ | ⟨⟨e, fe⟩, B'⟩
  · -- released entry is last: tail collapse
    rw [release_noMerge_collapse p A s n fl hprev hA hp]
    exact ⟨pA, cA, hAlast, wAs⟩
  · cases fe
    · -- free successor: absorb it
      rw [release_noMerge_mergeNext p A s e n B' fl hprev hA hp]
      have horig : List.Pairwise (· ≤ ·)
          (A.map mgm_chunk.m_first ++ s :: e :: B'.map mgm_chunk.m_first) := by
        have h := hW.1
        unfold nondecr_starts at h
        rw [hp] at h
        simpa using h
      refine ⟨?_, ?_, ?_, ?_⟩
      · unfold nondecr_starts
        simp only [List.map_append, List.map_cons]
        exact List.Pairwise.sublist
          (List.Sublist.append_left
            (List.Sublist.cons₂ s (List.sublist_cons_self e _)) _) horig
      · unfold no_adjacent_free
        rw [List.chain'_append]
        refine ⟨cA, ?_, ?_⟩
        · rw [List.chain'_cons']
          constructor
          · intro y hy
            right
            have h1 := (List.chain'_cons.1 cCB).2
            have h2 := (List.chain'_cons'.1 h1).1 y hy
            rcases h2 with h2 | h2
            · simp at h2
            · exact h2
          · exact (List.chain'_cons'.1 (List.chain'_cons.1 cCB).2).2
        · intro x hx y hy
          simp only [List.head?_cons, Option.mem_def, Option.some_inj] at hy
          left
          exact hAlast x hx
      · intro x hx
        rw [getLast?_append_cons] at hx
        cases B' with
        | nil =>
          exact absurd (lastCB ⟨e, false⟩ (by simp)) (by simp)
        | cons b₀ Bt =>
          rw [List.getLast?_cons_cons] at hx
          exact lastCB x
            (by rw [List.getLast?_cons_cons, List.getLast?_cons_cons]; exact hx)
      · intro c hc
        rcases List.mem_append.1 hc with hc | hc
        · exact bA c hc
        · rcases List.mem_cons.1 hc with rfl | hc
          · exact bs
          · exact bB c (List.mem_cons_of_mem _ hc)
    · -- in-use successor: only mark free
      rw [release_noMerge_keep p A s e n B' fl hprev hA hp]
      refine ⟨?_, ?_, ?_, ?_⟩
      · unfold nondecr_starts
        have h := hW.1
        unfold nondecr_starts at h
        rw [hp] at h
        simpa using h
      · unfold no_adjacent_free
        rw [List.chain'_append]
        refine ⟨cA, ?_, ?_⟩
        · rw [List.chain'_cons]
          exact ⟨Or.inr rfl, (List.chain'_cons.1 cCB).2⟩
        · intro x hx y hy
          simp only [List.head?_cons, Option.mem_def, Option.some_inj] at hy
          left
          exact hAlast x hx
      · intro x hx
        rw [getLast?_append_cons, List.getLast?_cons_cons] at hx
        exact lastCB x (by rw [List.getLast?_cons_cons]; exact hx)
      · intro c hc
        rcases List.mem_append.1 hc with hc | hc
        · exact bA c hc
        · rcases List.mem_cons.1 hc with rfl | hc
          · exact bs
          · exact bB c hc

end buffer_pool

namespace buffer_pool

theorem winv_release_merge (p : buffer_pool) (A₀ B : List mgm_chunk) (t s n : Nat)
    (fl : Bool) (hW : WInv p)
    (hp : p.m_chunks = A₀ ++ (⟨t, false⟩ : mgm_chunk) :: ⟨s, fl⟩ :: B)
    (hA : ∀ a ∈ A₀ ++ [(⟨t, false⟩ : mgm_chunk)], a.m_first ≠ s) :
    WInv (release p (handleAt s n)) := by
  obtain ⟨pA, pB, wAs, wsB, wAB, cA, cCB, linkA, lastCB, bA, bs, bB⟩ :=
    winv_split_facts p (A₀ ++ [⟨t, false⟩]) ⟨s, fl⟩ B hW (by rw [hp]; simp)
  have cA₀ : List.Chain' (fun a b => a.m_inUse = true ∨ b.m_inUse = true) A₀ :=
    (List.chain'_append.1 cA).1
  have hA₀last : ∀ x, A₀.getLast? = some x → x.m_inUse = true := by
    intro x hx
    have h := (List.chain'_append.1 cA).2.2 x hx ⟨t, false⟩ (by simp)
    rcases h with h | h
    · exact h
    · simp at h
  have hA₀t : ∀ c ∈ A₀, c.m_first ≤ t := by
    have h := pA
    rw [List.map_append, List.pairwise_append] at h
    intro c hc
    simpa using h.2.2 c.m_first (List.mem_map_of_mem _ hc) t (by simp)
  have horig : List.Pairwise (· ≤ ·)
      (A₀.map mgm_chunk.m_first ++ t :: s :: B.map mgm_chunk.m_first) := by
    have h := hW.1
    unfold nondecr_starts at h
    rw [hp] at h
    simpa using h
  rcases B with _ | ⟨⟨e, fe⟩, B'⟩
  · -- merged entry is last: tail collapse to t
    rw [release_merge_collapse p A₀ t s n fl hA hp]
    refine ⟨?_, cA₀, hA₀last, hA₀t⟩
    unfold nondecr_starts
    have h := pA
    rw [List.map_append] at h
    exact List.Pairwise.sublist (List.sublist_append_left _ _) h
  · cases fe
    · -- free successor: double merge
      rw [release_merge_mergeNext p A₀ t s e n B' fl hA hp]
      refine ⟨?_, ?_, ?_, ?_⟩
      · unfold nondecr_starts
        simp only [List.map_append, List.map_cons]
        refine List.Pairwise.sublist ?_ horig
        refine List.Sublist.append_left (List.Sublist.cons₂ t ?_) _
        exact ((List.sublist_cons_self e _).trans (List.sublist_cons_self s _))
      · unfold no_adjacent_free
        rw [List.chain'_append]
        refine ⟨cA₀, ?_, ?_⟩
        · rw [List.chain'_cons']
          constructor
          · intro y hy
            right
            have h1 := (List.chain'_cons.1 cCB).2
            have h2 := (List.chain'_cons'.1 h1).1 y hy
            rcases h2 with h2 | h2
            · simp at h2
            · exact h2
          · exact (List.chain'_cons'.1 (List.chain'_cons.1 cCB).2).2
        · intro x hx y hy
          simp only [List.head?_cons, Option.mem_def, Option.some_inj] at hy
          left
          exact hA₀last x hx
      · intro x hx
        rw [getLast?_append_cons] at hx
        cases B' with
        | nil =>
          exact absurd (lastCB ⟨e, false⟩ (by simp)) (by simp)
        | cons b₀ Bt =>
          rw [List.getLast?_cons_cons] at hx
          exact lastCB x
            (by rw [List.getLast?_cons_cons, List.getLast?_cons_cons]; exact hx)
      · intro c hc
        rcases List.mem_append.1 hc with hc | hc
        · exact bA c (by simp [hc])
        · rcases List.mem_cons.1 hc with rfl | hc
          · exact bA _ (by simp)
          · exact bB c (List.mem_cons_of_mem _ hc)
    · -- in-use successor: single merge
      rw [release_merge_keep p A₀ t s e n B' fl hA hp]
      refine ⟨?_, ?_, ?_, ?_⟩
      · unfold nondecr_starts
        simp only [List.map_append, List.map_cons]
        refine List.Pairwise.sublist ?_ horig
        exact List.Sublist.append_left
          (List.Sublist.cons₂ t (List.sublist_cons_self s _)) _
      · unfold no_adjacent_free
        rw [List.chain'_append]
        refine ⟨cA₀, ?_, ?_⟩
        · rw [List.chain'_cons]
          exact ⟨Or.inr rfl, (List.chain'_cons.1 cCB).2⟩
        · intro x hx y hy
          simp only [List.head?_cons, Option.mem_def, Option.some_inj] at hy
          left
          exact hA₀last x hx
      · intro x hx
        rw [getLast?_append_cons, List.getLast?_cons_cons] at hx
        exact lastCB x (by rw [List.getLast?_cons_cons]; exact hx)
      · intro c hc
        rcases List.mem_append.1 hc with hc | hc
        · exact bA c (by simp [hc])
        · rcases List.mem_cons.1 hc with rfl | hc
          · exact bA _ (by simp)
          · exact bB c hc

/-- `release` preserves the weak invariant, whatever handle it is given
(the not-found branch returns the pool unchanged). -/
theorem winv_release (p : buffer_pool) (s n : Nat) (hW : WInv p) :
    WInv (release p (handleAt s n)) := by
  cases hfnd : find_chunk p (handleAt s n) with
  | none =>
    have hrel : release p (handleAt s n) = p := by
      simp [release, hfnd]
    rw [hrel]
    exact hW
  | some i =>
    have hfnd' : List.findIdx? (fun c => (some c.m_first == some s : Bool))
        p.m_chunks = some i := hfnd
    have hsp := findIdx?_some_split p.m_chunks 0 i hfnd'
    simp only [Nat.sub_zero] at hsp
    obtain ⟨-, c0, hc0, hc0p, htake⟩ := hsp
    obtain ⟨f, fl⟩ := c0
    have hf : f = s := by simpa using hc0p
    rw [hf] at hc0
    obtain ⟨A, B, hp, hlen⟩ := get?_eq_some_split hc0
    have hA : ∀ a ∈ A, a.m_first ≠ s := by
      intro a ha
      have hTk : p.m_chunks.take i = A := by rw [hp, ← hlen, List.take_left]
      have := htake a (by rw [hTk]; exact ha)
      simpa using this
    rcases List.eq_nil_or_concat A with rfl | ⟨A₀, a₀, hAc⟩
    · exact winv_release_noMerge p [] B s n fl hW hp hA (Or.inl rfl)
    · rw [List.concat_eq_append] at hAc
      obtain ⟨t, ft⟩ := a₀
      cases ft
      · subst hAc
        exact winv_release_merge p A₀ B t s n fl hW (by simpa using hp) hA
      · subst hAc
        exact winv_release_noMerge p (A₀ ++ [⟨t, true⟩]) B s n fl hW hp hA
          (Or.inr ⟨t, A₀, rfl⟩)

end buffer_pool

namespace buffer_pool

/-- `Chunk::shrink` of a live entry preserves the weak invariant, for *any*
`newSize ≤ n` — including `newSize = 0`.  When the find-first lookup lands
on a free duplicate of the start, the derived size is 0, forcing
`newSize = n` and hence the no-op branch. -/
theorem winv_shrink (p : buffer_pool) (s n newSize : Nat) (hW : WInv p)
    (hlive : live_at p s)
    (hn : n = chunk_size p.m_chunks p.m_last ⟨s, true⟩)
    (hle : newSize ≤ n) :
    WInv (Chunk.shrink p (handleAt s n) newSize).2 := by
  by_cases heq : newSize = n
  · have h2 : (Chunk.shrink p (handleAt s n) newSize).2 = p := by
      simp [Chunk.shrink, handleAt, heq]
    rw [h2]
    exact hW
  · have h2 : (Chunk.shrink p (handleAt s n) newSize).2 =
        resize p ⟨⟨some s, newSize⟩, true⟩ := by
      simp [Chunk.shrink, handleAt, heq]
    rw [h2]
    cases hfi : List.findIdx? (fun c => (c.m_first == s : Bool)) p.m_chunks with
    | none =>
      exfalso
      obtain ⟨j, c', hj, hfirst, huse⟩ := hlive
      have := findIdx?_eq_none_forall p.m_chunks 0 hfi c' (List.get?_mem hj)
      rw [hfirst] at this
      simp at this
    | some k =>
      have hsp := findIdx?_some_split p.m_chunks 0 k hfi
      simp only [Nat.sub_zero] at hsp
      obtain ⟨-, c0, hc0, hc0p, htake⟩ := hsp
      obtain ⟨f, flk⟩ := c0
      have hf : f = s := by simpa using hc0p
      rw [hf] at hc0
      obtain ⟨A, B, hp, hlen⟩ := get?_eq_some_split hc0
      have hA : ∀ a ∈ A, a.m_first ≠ s := by
        intro a ha
        have hTk : p.m_chunks.take k = A := by rw [hp, ← hlen, List.take_left]
        have := htake a (by rw [hTk]; exact ha)
        simpa using this
      obtain ⟨pA, pB, wAs, wsB, wAB, cA, cCB, linkA, lastCB, bA, bs, bB⟩ :=
        winv_split_facts p A ⟨s, flk⟩ B hW hp
      have hsz : n = (match B.head? with
          | some d => d.m_first - s
          | none => p.m_last - s) := by
        rw [hn, hp]
        exact chunk_size_first_split A s flk B p.m_last hA
      cases flk with
      | false =>
        -- the find landed on a free duplicate: the derived size is 0, so the
        -- shrink would have been the no-op newSize = n = 0
        exfalso
        obtain ⟨j, c', hj, hfirst, huse⟩ := hlive
        have hjA : ¬ j < A.length := by
          intro hlt2
          have h := hj
          rw [hp, get?_append_lt A (⟨s, false⟩ :: B) j hlt2] at h
          exact hA c' (List.get?_mem h) hfirst
        have hjne : ¬ j = A.length := by
          intro hEq
          have h := hj
          rw [hp, hEq, get?_append_cons] at h
          obtain rfl : (⟨s, false⟩ : mgm_chunk) = c' := Option.some_inj.1 h
          simp at huse
        obtain ⟨m, hm⟩ : ∃ m, j = A.length + 1 + m := ⟨j - A.length - 1, by omega⟩
        have hB : B.get? m = some c' := by
          have h := hj
          rw [hp, hm, get?_append_cons_add] at h
          exact h
        have hcB : c' ∈ B := List.get?_mem hB
        cases B with
        | nil => simp at hcB
        | cons bh Bt =>
          have hbh1 : s ≤ bh.m_first := by
            simpa using wsB bh (List.mem_cons_self _ _)
          have hbh2 : bh.m_first ≤ s := by
            rcases List.mem_cons.1 hcB with rfl | hct
            · exact Nat.le_of_eq hfirst
            · have h := pB
              rw [List.map_cons, List.pairwise_cons] at h
              have h2 := h.1 c'.m_first (List.mem_map_of_mem _ hct)
              omega
          have hn0 : n = 0 := by
            rw [hsz]
            simp only [List.head?_cons]
            omega
          exact heq (by omega)
      | true =>
        have hlt : newSize < n := Nat.lt_of_le_of_ne hle heq
        rcases B with _ | ⟨⟨e, fe⟩, B'⟩
        · -- last entry: retract m_last
          rw [resize_tail p A s newSize hA hp]
          refine ⟨hW.1, hW.2.1, hW.2.2.1, ?_⟩
          intro c hc
          rw [hp] at hc
          rcases List.mem_append.1 hc with hc | hc
          · have := wAs c hc
            simp only [] at this ⊢
            omega
          · rcases List.mem_cons.1 hc with rfl | hc
            · simp only []
              omega
            · simp at hc
        · have hn_eq : n = e - s := by simpa using hsz
          have hepos : s < e := by omega
          have hme : s + newSize < e := by omega
          have hsB' : ∀ b ∈ B', s ≤ b.m_first := fun b hb => by
            simpa using wsB b (List.mem_cons_of_mem _ hb)
          have heB' : ∀ y ∈ B'.map mgm_chunk.m_first, e ≤ y := by
            have h := pB
            rw [List.map_cons, List.pairwise_cons] at h
            exact h.1
          have pB' : List.Pairwise (· ≤ ·) (B'.map mgm_chunk.m_first) := by
            have h := pB
            rw [List.map_cons, List.pairwise_cons] at h
            exact h.2
          cases fe with
          | false =>
            -- free successor: extend it backward
            rw [resize_extend p A s newSize e B' hA hp]
            refine ⟨?_, ?_, ?_, ?_⟩
            · unfold nondecr_starts
              simp only [List.map_append, List.map_cons]
              rw [List.pairwise_append]
              refine ⟨pA, ?_, ?_⟩
              · rw [List.pairwise_cons]
                constructor
                · intro y hy
                  rcases List.mem_cons.1 hy with rfl | hy
                  · omega
                  · obtain ⟨b, hb, rfl⟩ := List.mem_map.1 hy
                    have := hsB' b hb
                    omega
                · rw [List.pairwise_cons]
                  constructor
                  · intro y hy
                    obtain ⟨b, hb, rfl⟩ := List.mem_map.1 hy
                    have := heB' b.m_first (List.mem_map_of_mem _ hb)
                    omega
                  · exact pB'
              · intro x hx y hy
                obtain ⟨a, ha, rfl⟩ := List.mem_map.1 hx
                have h1 := wAs a ha
                simp only [] at h1
                rcases List.mem_cons.1 hy with rfl | hy
                · exact h1
                · rcases List.mem_cons.1 hy with rfl | hy
                  · omega
                  · obtain ⟨b, hb, rfl⟩ := List.mem_map.1 hy
                    have := hsB' b hb
                    omega
            · unfold no_adjacent_free
              rw [List.chain'_append]
              refine ⟨cA, ?_, ?_⟩
              · rw [List.chain'_cons]
                refine ⟨Or.inl rfl, ?_⟩
                rw [List.chain'_cons']
                constructor
                · intro y hy
                  right
                  have h1 := (List.chain'_cons.1 cCB).2
                  have h2 := (List.chain'_cons'.1 h1).1 y hy
                  rcases h2 with h2 | h2
                  · simp at h2
                  · exact h2
                · exact (List.chain'_cons'.1 (List.chain'_cons.1 cCB).2).2
              · intro x hx y hy
                simp only [List.head?_cons, Option.mem_def, Option.some_inj] at hy
                subst hy
                right
                rfl
            · intro x hx
              rw [getLast?_append_cons, List.getLast?_cons_cons] at hx
              cases B' with
              | nil =>
                exact absurd (lastCB ⟨e, false⟩ (by simp)) (by simp)
              | cons b₀ Bt =>
                rw [List.getLast?_cons_cons] at hx
                exact lastCB x
                  (by rw [List.getLast?_cons_cons, List.getLast?_cons_cons]; exact hx)
            · intro c hc
              have hel : e ≤ p.m_last := by simpa using bB ⟨e, false⟩ (by simp)
              rcases List.mem_append.1 hc with hc | hc
              · exact bA c hc
              · rcases List.mem_cons.1 hc with rfl | hc
                · exact bs
                · rcases List.mem_cons.1 hc with rfl | hc
                  · simp only []
                    omega
                  · exact bB c (List.mem_cons_of_mem _ hc)
          | true =>
            -- in-use successor: insert a fresh free entry
            rw [resize_insert p A s newSize e B' hA hp]
            refine ⟨?_, ?_, ?_, ?_⟩
            · unfold nondecr_starts
              simp only [List.map_append, List.map_cons]
              rw [List.pairwise_append]
              refine ⟨pA, ?_, ?_⟩
              · rw [List.pairwise_cons]
                constructor
                · intro y hy
                  rcases List.mem_cons.1 hy with rfl | hy
                  · omega
                  · rcases List.mem_cons.1 hy with rfl | hy
                    · omega
                    · obtain ⟨b, hb, rfl⟩ := List.mem_map.1 hy
                      have := hsB' b hb
                      omega
                · rw [List.pairwise_cons]
                  constructor
                  · intro y hy
                    rcases List.mem_cons.1 hy with rfl | hy
                    · omega
                    · obtain ⟨b, hb, rfl⟩ := List.mem_map.1 hy
                      have := heB' b.m_first (List.mem_map_of_mem _ hb)
                      omega
                  · rw [List.pairwise_cons]
                    exact ⟨heB', pB'⟩
              · intro x hx y hy
                obtain ⟨a, ha, rfl⟩ := List.mem_map.1 hx
                have h1 := wAs a ha
                simp only [] at h1
                rcases List.mem_cons.1 hy with rfl | hy
                · exact h1
                · rcases List.mem_cons.1 hy with rfl | hy
                  · omega
                  · rcases List.mem_cons.1 hy with rfl | hy
                    · omega
                    · obtain ⟨b, hb, rfl⟩ := List.mem_map.1 hy
                      have := hsB' b hb
                      omega
            · unfold no_adjacent_free
              rw [List.chain'_append]
              refine ⟨cA, ?_, ?_⟩
              · rw [List.chain'_cons]
                refine ⟨Or.inl rfl, ?_⟩
                rw [List.chain'_cons]
                exact ⟨Or.inr rfl, (List.chain'_cons.1 cCB).2⟩
              · intro x hx y hy
                simp only [List.head?_cons, Option.mem_def, Option.some_inj] at hy
                subst hy
                right
                rfl
            · intro x hx
              rw [getLast?_append_cons, List.getLast?_cons_cons,
                List.getLast?_cons_cons] at hx
              exact lastCB x (by rw [List.getLast?_cons_cons]; exact hx)
            · intro c hc
              have hel : e ≤ p.m_last := by simpa using bB ⟨e, true⟩ (by simp)
              rcases List.mem_append.1 hc with hc | hc
              · exact bA c hc
              · rcases List.mem_cons.1 hc with rfl | hc
                · exact bs
                · rcases List.mem_cons.1 hc with rfl | hc
                  · simp only []
                    omega
                  · rcases List.mem_cons.1 hc with rfl | hc
                    · exact bB ⟨e, true⟩ (by simp)
                    · exact bB c (List.mem_cons_of_mem _ hc)

end buffer_pool

namespace buffer_pool

/-- `request` preserves the weak invariant (whether it succeeds or fails).
The searched-for free entry is necessarily the *first* occurrence of its
start: a free duplicate has derived size 0 and never satisfies the
positive-size fit test. -/
theorem winv_request (p : buffer_pool) (n : Nat) (hW : WInv p) (h0 : 0 < n) :
    WInv (request p n).2 := by
  cases hfind : findLastIdx?
      (fun c => !c.m_inUse && decide (n ≤ chunk_size p.m_chunks p.m_last c))
      p.m_chunks with
  | none =>
    rw [request_eq_fresh p n hfind]
    by_cases hfail : p.m_memorySize - p.m_last < n
    · have h : request_fresh p n = (none, p) := by
        simp [request_fresh, hfail]
      rw [h]
      exact hW
    · rw [request_fresh_ok p n hfail]
      obtain ⟨hnd, hadj, hlast, hbound⟩ := hW
      refine ⟨?_, ?_, ?_, ?_⟩
      · unfold nondecr_starts at hnd ⊢
        simp only [List.map_append, List.map_cons, List.map_nil]
        rw [List.pairwise_append]
        refine ⟨hnd, by simp, ?_⟩
        intro x hx y hy
        simp only [List.mem_singleton] at hy
        subst hy
        obtain ⟨a, ha, rfl⟩ := List.mem_map.1 hx
        exact hbound a ha
      · unfold no_adjacent_free at hadj ⊢
        rw [List.chain'_append]
        refine ⟨hadj, by simp, ?_⟩
        intro x hx y hy
        simp only [List.head?_cons, Option.mem_def, Option.some_inj] at hy
        subst hy
        right
        rfl
      · intro c hc
        rw [List.getLast?_concat] at hc
        cases hc
        rfl
      · intro c hc
        rcases List.mem_append.1 hc with hc | hc
        · have := hbound c hc
          simp only []
          omega
        · rcases List.mem_cons.1 hc with rfl | hc
          · simp only []
            omega
          · simp at hc
  | some i =>
    rw [request_eq_reuse p n i hfind]
    obtain ⟨cf, hci, hpred⟩ := findLastIdx?_eq_some hfind
    obtain ⟨b, flb⟩ := cf
    simp only [Bool.and_eq_true, Bool.not_eq_true', decide_eq_true_eq] at hpred
    obtain ⟨hfl, hsize⟩ := hpred
    subst hfl
    rcases chunk_size_eq p.m_chunks p.m_last ⟨b, false⟩ with
      hz | ⟨A, flk, B, hp0, hA0, hcs0⟩
    · rw [hz] at hsize
      omega
    · have hp' : p.m_chunks = A ++ (⟨b, flk⟩ : mgm_chunk) :: B := hp0
      have hA' : ∀ a ∈ A, a.m_first ≠ b := hA0
      have hcs' : chunk_size p.m_chunks p.m_last ⟨b, false⟩ =
          (match B.head? with
          | some d => d.m_first - b
          | none => p.m_last - b) := hcs0
      obtain ⟨pA, pB, wAs, wsB, wAB, cA, cCB, linkA, lastCB, bA, bs, bB⟩ :=
        winv_split_facts p A ⟨b, flk⟩ B hW hp'
      have hilen : i < p.m_chunks.length := by
        by_contra hge
        rw [show p.m_chunks.get? i = none from List.get?_eq_none.2 (by omega)] at hci
        simp at hci
      have hile : ¬ i < A.length := by
        intro hlt
        have h := hci
        rw [hp', get?_append_lt A _ i hlt] at h
        exact hA' ⟨b, false⟩ (List.get?_mem h) rfl
      have hige : ¬ A.length < i := by
        intro hlt
        cases B with
        | nil =>
          have hl2 : p.m_chunks.length = A.length + 1 := by
            rw [hp', length_append_cons]
            simp
          omega
        | cons bh Bt =>
          have hbh : p.m_chunks.get? (A.length + 1) = some bh := by
            rw [hp', get?_append_cons_succ]
            rfl
          have h1 : b ≤ bh.m_first := by
            simpa using wsB bh (List.mem_cons_self _ _)
          have h2 : bh.m_first ≤ b := by
            rcases Nat.lt_or_ge (A.length + 1) i with hlt2 | hge2
            · have h := map_pairwise_le_get? p.m_chunks hW.1 (A.length + 1) i bh
                ⟨b, false⟩ hlt2 hbh hci
              simpa using h
            · have hEq : A.length + 1 = i := by omega
              rw [hEq, hci] at hbh
              obtain rfl : (⟨b, false⟩ : mgm_chunk) = bh := Option.some_inj.1 hbh
              exact Nat.le_refl b
          have hn0 : chunk_size p.m_chunks p.m_last ⟨b, false⟩ = 0 := by
            rw [hcs']
            simp only [List.head?_cons]
            omega
          rw [hn0] at hsize
          omega
      have hAi : A.length = i := by omega
      have hflk : flk = false := by
        have h := hci
        rw [← hAi, hp', get?_append_cons] at h
        have h2 := Option.some_inj.1 h
        cases h2
        rfl
      subst hflk
      rcases B with _ | ⟨⟨e, fe⟩, B'⟩
      · exact absurd (lastCB ⟨b, false⟩ (by simp)) (by simp)
      · have hfe : fe = true := by
          have h1 := (List.chain'_cons.1 cCB).1
          rcases h1 with h1 | h1
          · simp at h1
          · exact h1
        subst hfe
        have hne : n ≤ e - b := by
          rw [hcs'] at hsize
          simpa using hsize
        have hbe : b < e := by omega
        have hsB' : ∀ x ∈ B', b ≤ x.m_first := fun x hx => by
          simpa using wsB x (List.mem_cons_of_mem _ hx)
        have heB' : ∀ y ∈ B'.map mgm_chunk.m_first, e ≤ y := by
          have h := pB
          rw [List.map_cons, List.pairwise_cons] at h
          exact h.1
        have pB' : List.Pairwise (· ≤ ·) (B'.map mgm_chunk.m_first) := by
          have h := pB
          rw [List.map_cons, List.pairwise_cons] at h
          exact h.2
        rw [← hAi]
        by_cases hex : chunk_size (A ++ (⟨b, true⟩ : mgm_chunk) :: ⟨e, true⟩ :: B')
            p.m_last ⟨b, true⟩ = n
        · -- exact fit
          rw [request_reuse_exact p n b A (⟨e, true⟩ :: B') false hA' hp' hex]
          refine ⟨?_, ?_, ?_, ?_⟩
          · unfold nondecr_starts
            have h := hW.1
            unfold nondecr_starts at h
            rw [hp'] at h
            simpa using h
          · unfold no_adjacent_free
            rw [List.chain'_append]
            refine ⟨cA, ?_, ?_⟩
            · rw [List.chain'_cons]
              exact ⟨Or.inl rfl, (List.chain'_cons.1 cCB).2⟩
            · intro x hx y hy
              simp only [List.head?_cons, Option.mem_def, Option.some_inj] at hy
              subst hy
              right
              rfl
          · intro x hx
            rw [getLast?_append_cons, List.getLast?_cons_cons] at hx
            exact lastCB x (by rw [List.getLast?_cons_cons]; exact hx)
          · intro c hc
            rcases List.mem_append.1 hc with hc | hc
            · exact bA c hc
            · rcases List.mem_cons.1 hc with rfl | hc
              · exact bs
              · exact bB c hc
        · -- split
          rw [request_reuse_split p n b A (⟨e, true⟩ :: B') false hA' hp' hex]
          have hsz_new : chunk_size (A ++ (⟨b, true⟩ : mgm_chunk) :: ⟨e, true⟩ :: B')
              p.m_last ⟨b, true⟩ = e - b := by
            have h := chunk_size_first_split A b true (⟨e, true⟩ :: B') p.m_last hA'
            simpa using h
          have hbn : b + n < e := by
            rw [hsz_new] at hex
            omega
          refine ⟨?_, ?_, ?_, ?_⟩
          · unfold nondecr_starts
            simp only [List.map_append, List.map_cons]
            rw [List.pairwise_append]
            refine ⟨pA, ?_, ?_⟩
            · rw [List.pairwise_cons]
              constructor
              · intro y hy
                rcases List.mem_cons.1 hy with rfl | hy
                · omega
                · rcases List.mem_cons.1 hy with rfl | hy
                  · omega
                  · obtain ⟨x, hx, rfl⟩ := List.mem_map.1 hy
                    have := hsB' x hx
                    omega
              · rw [List.pairwise_cons]
                constructor
                · intro y hy
                  rcases List.mem_cons.1 hy with rfl | hy
                  · omega
                  · obtain ⟨x, hx, rfl⟩ := List.mem_map.1 hy
                    have := heB' x.m_first (List.mem_map_of_mem _ hx)
                    omega
                · rw [List.pairwise_cons]
                  exact ⟨heB', pB'⟩
            · intro x hx y hy
              obtain ⟨a, ha, rfl⟩ := List.mem_map.1 hx
              have h1 := wAs a ha
              simp only [] at h1
              rcases List.mem_cons.1 hy with rfl | hy
              · exact h1
              · rcases List.mem_cons.1 hy with rfl | hy
                · omega
                · rcases List.mem_cons.1 hy with rfl | hy
                  · omega
                  · obtain ⟨x2, hx2, rfl⟩ := List.mem_map.1 hy
                    have := hsB' x2 hx2
                    omega
          · unfold no_adjacent_free
            rw [List.chain'_append]
            refine ⟨cA, ?_, ?_⟩
            · rw [List.chain'_cons]
              refine ⟨Or.inl rfl, ?_⟩
              rw [List.chain'_cons]
              exact ⟨Or.inr rfl, (List.chain'_cons.1 cCB).2⟩
            · intro x hx y hy
              simp only [List.head?_cons, Option.mem_def, Option.some_inj] at hy
              subst hy
              right
              rfl
          · intro x hx
            rw [getLast?_append_cons, List.getLast?_cons_cons,
              List.getLast?_cons_cons] at hx
            exact lastCB x (by rw [List.getLast?_cons_cons]; exact hx)
          · intro c hc
            have hel : e ≤ p.m_last := by simpa using bB ⟨e, true⟩ (by simp)
            rcases List.mem_append.1 hc with hc | hc
            · exact bA c hc
            · rcases List.mem_cons.1 hc with rfl | hc
              · exact bs
              · rcases List.mem_cons.1 hc with rfl | hc
                · simp only []
                  omega
                · rcases List.mem_cons.1 hc with rfl | hc
                  · exact bB ⟨e, true⟩ (by simp)
                  · exact bB c (List.mem_cons_of_mem _ hc)

/-- A freshly constructed pool satisfies the weak invariant. -/
theorem winv_fresh (N : Nat) : WInv (fresh N) := by
  refine ⟨?_, ?_, ?_, ?_⟩
  · simp [fresh, nondecr_starts]
  · simp [fresh, no_adjacent_free]
  · intro c hc
    simp [fresh] at hc
  · intro c hc
    simp [fresh] at hc

/-- Any single public call, under the specification's *stated* preconditions
only (shrink-to-zero included), preserves the weak invariant. -/
theorem winv_spec_step (p p' : buffer_pool) (hW : WInv p) (h : SpecStep p p') :
    WInv p' := by
  cases h with
  | request n h0 h1 => exact winv_request p n hW h0
  | release s n hlive hn => exact winv_release p s n hW
  | shrink s n newSize hlive hn hle =>
    exact winv_shrink p s n newSize hW hlive hn hle

/-- Every pool state reachable with only the stated preconditions satisfies
the weak invariant. -/
theorem spec_reach_winv (N : Nat) (p : buffer_pool) (h : SpecReachable N p) :
    WInv p := by
  induction h with
  | refl => exact winv_fresh N
  | tail hsteps hstep ih => exact winv_spec_step _ _ ih hstep

end buffer_pool

/-- **C1 (counterexample).** The claim fails as stated: the stated
precondition of shrink is only `new_size ≤ current_size`, which admits
`new_size = 0`.  From a fresh 1024-byte pool: allocate 10 (chunk at offset
0), allocate 10 (chunk at offset 10), then shrink the first chunk to 0.
`resize` inserts the free entry `⟨0, free⟩` directly after the in-use entry
`⟨0, used⟩`, so the segment list `[⟨0, used⟩, ⟨0, free⟩, ⟨10, used⟩]` no
longer has strictly increasing start values. -/
theorem C1_counterexample_shrink_to_zero :
    SpecReachable 1024 ⟨1024, [⟨0, true⟩, ⟨0, false⟩, ⟨10, true⟩], 20⟩ ∧
    ¬ sorted_starts ⟨1024, [⟨0, true⟩, ⟨0, false⟩, ⟨10, true⟩], 20⟩ := by
  constructor
  · have h1 : SpecStep (fresh 1024) (⟨1024, [⟨0, true⟩], 10⟩ : buffer_pool) :=
      SpecStep.request (fresh 1024) 10 (by decide) (by decide)
    have h2 : SpecStep (⟨1024, [⟨0, true⟩], 10⟩ : buffer_pool)
        (⟨1024, [⟨0, true⟩, ⟨10, true⟩], 20⟩ : buffer_pool) :=
      SpecStep.request ⟨1024, [⟨0, true⟩], 10⟩ 10 (by decide) (by decide)
    have h3 : SpecStep (⟨1024, [⟨0, true⟩, ⟨10, true⟩], 20⟩ : buffer_pool)
        (⟨1024, [⟨0, true⟩, ⟨0, false⟩, ⟨10, true⟩], 20⟩ : buffer_pool) :=
      SpecStep.shrink ⟨1024, [⟨0, true⟩, ⟨10, true⟩], 20⟩ 0 10 0
        ⟨0, ⟨0, true⟩, rfl, rfl, rfl⟩ (by decide) (by decide)
    exact Relation.ReflTransGen.tail
      (Relation.ReflTransGen.tail
        (Relation.ReflTransGen.tail Relation.ReflTransGen.refl h1) h2) h3
  · intro h
    unfold sorted_starts at h
    simp only [List.map_cons, List.map_nil] at h
    rcases List.pairwise_cons.1 h with ⟨hh, -⟩
    exact absurd (hh 0 (by simp)) (by omega)

/-- **C1 (amended).** For every sequence of allocate/release/shrink calls
that respects each operation's stated preconditions and, in addition,
shrinks only to positive sizes (`0 < new_size`), the segment list afterwards
has strictly increasing start values with no overlapping segments, and no
two adjacent segments are both free. -/
theorem C1_amended_segment_invariant (N : Nat) (p : buffer_pool)
    (h : Reachable N p) :
    sorted_starts p ∧ no_adjacent_free p :=
  ⟨(reach_inv N p h).1, (reach_inv N p h).2.1⟩

/-- **C1 witness.** The amended invariant evaluated on the pool reached by
two 10-byte allocations and a release from a fresh 1024-byte pool. -/
theorem C1_witness :
    sorted_starts (⟨1024, [⟨0, true⟩, ⟨10, true⟩], 20⟩ : buffer_pool) ∧
    no_adjacent_free (⟨1024, [⟨0, true⟩, ⟨10, true⟩], 20⟩ : buffer_pool) :=
  C1_amended_segment_invariant 1024 ⟨1024, [⟨0, true⟩, ⟨10, true⟩], 20⟩
    (Relation.ReflTransGen.tail
      (Relation.ReflTransGen.tail Relation.ReflTransGen.refl
        (Step.request (fresh 1024) 10 (by decide) (by decide)))
      (Step.request ⟨1024, [⟨0, true⟩], 10⟩ 10 (by decide) (by decide)))

/-- **C10.** In every pool state reachable by allocate/release/shrink calls
respecting the operations' stated preconditions — shrink to `new_size = 0`
included — the last segment of a non-empty segment list is in use: a free
segment never occupies the tail position, so all free space adjacent to the
high-water mark is unclaimed rather than tracked.  (Releasing or shrinking
the trailing segment collapses or relocates `m_last` instead of leaving a
trailing free entry, and the duplicate-start free entries created by
shrink-to-zero have derived size 0, so no operation ever places a free
entry at the tail.) -/
theorem C10_last_segment_in_use (N : Nat) (p : buffer_pool)
    (h : SpecReachable N p) (c : mgm_chunk)
    (hlast : p.m_chunks.getLast? = some c) :
    c.m_inUse = true :=
  (spec_reach_winv N p h).2.2.1 c hlast

/-- **C10 witness.** The tail entry stays in use even across a
shrink-to-zero: request 10, request 10, then shrink the first chunk to 0
reaches `[⟨0, used⟩, ⟨0, free⟩, ⟨10, used⟩]`, whose last entry is in use. -/
theorem C10_witness :
    (⟨10, true⟩ : mgm_chunk).m_inUse = true :=
  C10_last_segment_in_use 1024 ⟨1024, [⟨0, true⟩, ⟨0, false⟩, ⟨10, true⟩], 20⟩
    (Relation.ReflTransGen.tail
      (Relation.ReflTransGen.tail
        (Relation.ReflTransGen.tail Relation.ReflTransGen.refl
          (SpecStep.request (fresh 1024) 10 (by decide) (by decide)))
        (SpecStep.request ⟨1024, [⟨0, true⟩], 10⟩ 10 (by decide) (by decide)))
      (SpecStep.shrink ⟨1024, [⟨0, true⟩, ⟨10, true⟩], 20⟩ 0 10 0
        ⟨0, ⟨0, true⟩, rfl, rfl, rfl⟩ (by decide) (by decide)))
    ⟨10, true⟩ rfl

/-- **C6.** For every well-formed pool state and every positive size `n`,
a successful `allocate(n)` immediately followed by releasing the returned
chunk restores the pool exactly — in particular `free_mem()` is restored. -/
theorem C6_request_release_roundtrip (p : buffer_pool) (n : Nat) (hInv : Inv p)
    (h0 : 0 < n) (c : Chunk) (p₁ : buffer_pool)
    (hreq : buffer_pool.request p n = (some c, p₁)) :
    buffer_pool.release p₁ c = p ∧
    free_mem (buffer_pool.release p₁ c) = free_mem p := by
  suffices h : buffer_pool.release p₁ c = p from ⟨h, by rw [h]⟩
  cases hfind : findLastIdx?
      (fun c => !c.m_inUse && decide (n ≤ chunk_size p.m_chunks p.m_last c))
      p.m_chunks with
  | none =>
    rw [request_eq_fresh p n hfind] at hreq
    by_cases hfail : p.m_memorySize - p.m_last < n
    · rw [show request_fresh p n = (none, p) from by simp [request_fresh, hfail]] at hreq
      simp at hreq
    · rw [request_fresh_ok p n hfail, Prod.mk.injEq, Option.some_inj] at hreq
      obtain ⟨hc, hp₁⟩ := hreq
      subst hc
      subst hp₁
      show buffer_pool.release _ (handleAt p.m_last n) = p
      have hprev : p.m_chunks = [] ∨
          ∃ u A'', p.m_chunks = A'' ++ [(⟨u, true⟩ : mgm_chunk)] := by
        rcases List.eq_nil_or_concat p.m_chunks with he | ⟨A₀, a₀, hAc⟩
        · exact Or.inl he
        · right
          rw [List.concat_eq_append] at hAc
          obtain ⟨u, fu⟩ := a₀
          have hfu : fu = true := by
            have := hInv.2.2.1 ⟨u, fu⟩ (by rw [hAc, List.getLast?_concat])
            simpa using this
          subst hfu
          exact ⟨u, A₀, hAc⟩
      have hA : ∀ a ∈ p.m_chunks, a.m_first ≠ p.m_last := by
        intro a ha
        have := hInv.2.2.2 a ha
        omega
      rw [release_noMerge_collapse
        { p with m_chunks := p.m_chunks ++ [⟨p.m_last, true⟩], m_last := p.m_last + n }
        p.m_chunks p.m_last n true hprev hA rfl]
  | some i =>
    rw [request_eq_reuse p n i hfind] at hreq
    obtain ⟨cf, hci, hpred⟩ := findLastIdx?_eq_some hfind
    obtain ⟨b, fl⟩ := cf
    simp only [Bool.and_eq_true, Bool.not_eq_true', decide_eq_true_eq] at hpred
    obtain ⟨hfl, hsize⟩ := hpred
    subst hfl
    obtain ⟨A, B, hp, hiA⟩ := get?_eq_some_split hci
    subst hiA
    obtain ⟨sA, sB, hAs, hsB, hAB, cA, cCB, linkA, lastCB, bA, bs, bB⟩ :=
      inv_split_facts p A ⟨b, false⟩ B hInv hp
    have hA : ∀ a ∈ A, a.m_first ≠ b := by
      intro a ha
      have := hAs a ha
      simp only [] at this
      omega
    have hprev : A = [] ∨ ∃ u A'', A = A'' ++ [(⟨u, true⟩ : mgm_chunk)] := by
      rcases List.eq_nil_or_concat A with he | ⟨A₀, a₀, hAc⟩
      · exact Or.inl he
      · right
        rw [List.concat_eq_append] at hAc
        obtain ⟨u, fu⟩ := a₀
        have hfu : fu = true := by
          have h := linkA ⟨u, fu⟩ (by rw [hAc, List.getLast?_concat])
          rcases h with h | h
          · simpa using h
          · simp at h
        subst hfu
        exact ⟨u, A₀, hAc⟩
    rcases B with _ | ⟨⟨e, fe⟩, B'⟩
    · exact absurd (lastCB ⟨b, false⟩ (by simp)) (by simp)
    have hfe : fe = true := by
      have h1 := (List.chain'_cons.1 cCB).1
      rcases h1 with h1 | h1
      · simp at h1
      · exact h1
    subst hfe
    by_cases hex : chunk_size (A ++ (⟨b, true⟩ : mgm_chunk) :: ⟨e, true⟩ :: B') p.m_last
        ⟨b, true⟩ = n
    · rw [request_reuse_exact p n b A (⟨e, true⟩ :: B') false hA hp hex,
        Prod.mk.injEq, Option.some_inj] at hreq
      obtain ⟨hc, hp₁⟩ := hreq
      subst hc
      subst hp₁
      show buffer_pool.release _ (handleAt b n) = p
      rw [release_noMerge_keep
        { p with m_chunks := A ++ (⟨b, true⟩ : mgm_chunk) :: ⟨e, true⟩ :: B' }
        A b e n B' true hprev hA rfl]
      rw [← hp]
    · rw [request_reuse_split p n b A (⟨e, true⟩ :: B') false hA hp hex,
        Prod.mk.injEq, Option.some_inj] at hreq
      obtain ⟨hc, hp₁⟩ := hreq
      subst hc
      subst hp₁
      show buffer_pool.release _ (handleAt b n) = p
      rw [release_noMerge_mergeNext
        { p with m_chunks :=
            A ++ (⟨b, true⟩ : mgm_chunk) :: ⟨b + n, false⟩ :: ⟨e, true⟩ :: B' }
        A b (b + n) n (⟨e, true⟩ :: B') true hprev hA rfl]
      rw [← hp]

/-- **C6 witness.** From a fresh 1024-byte pool, `allocate 10` then release
restores the pool, and `free_mem` equals the capacity 1024. -/
theorem C6_witness :
    buffer_pool.release (⟨1024, [⟨0, true⟩], 10⟩ : buffer_pool) ⟨⟨some 0, 10⟩, true⟩ =
      fresh 1024 ∧
    free_mem (buffer_pool.release (⟨1024, [⟨0, true⟩], 10⟩ : buffer_pool)
      ⟨⟨some 0, 10⟩, true⟩) = free_mem (fresh 1024) :=
  C6_request_release_roundtrip (fresh 1024) 10 (inv_fresh 1024) (by decide)
    ⟨⟨some 0, 10⟩, true⟩ ⟨1024, [⟨0, true⟩], 10⟩ (by decide)

namespace buffer_pool

theorem posSizes_cons_free (c : mgm_chunk) (C : List mgm_chunk) (last : Nat)
    (h : c.m_inUse = false) : posSizes (c :: C) last = posSizes C last := by
  cases C with
  | nil => simp [posSizes, h]
  | cons d r => simp [posSizes, h]

theorem posSizes_cons_cons (c d : mgm_chunk) (r : List mgm_chunk) (last : Nat) :
    posSizes (c :: d :: r) last =
      (if c.m_inUse then d.m_first - c.m_first else 0) + posSizes (d :: r) last := rfl

theorem posSizes_singleton (c : mgm_chunk) (last : Nat) :
    posSizes [c] last = if c.m_inUse then last - c.m_first else 0 := rfl

theorem findable_append (A M : List mgm_chunk)
    (hA : List.Pairwise (· < ·) (A.map mgm_chunk.m_first)) (hM : findable M)
    (hcross : ∀ a ∈ A, ∀ m ∈ M, m.m_inUse = true → a.m_first ≠ m.m_first) :
    findable (A ++ M) := by
  unfold findable
  rw [List.pairwise_append]
  refine ⟨?_, hM, hcross⟩
  have h := List.pairwise_map.1 hA
  apply List.Pairwise.imp _ h
  intro a b hab _
  exact Nat.ne_of_lt hab

theorem findable_of_lt_map {L : List mgm_chunk}
    (h : List.Pairwise (· < ·) (L.map mgm_chunk.m_first)) : findable L := by
  unfold findable
  have h2 := List.pairwise_map.1 h
  apply List.Pairwise.imp _ h2
  intro a b hab _
  exact Nat.ne_of_lt hab

end buffer_pool

/-- **C4.** For every well-formed pool, every live chunk handle (over
`[s, s+len)` where `len` is the derived size of its segment) and every
`new_size ≤ len`: `shrink(new_size)` updates the handle's view to the first
`new_size` bytes of its range without changing the chunk's start address,
returns the freed suffix to the pool (`used_mem` drops by exactly
`len - new_size`, so that amount of memory is free or unclaimed again), and
is a no-op when `new_size` equals the current size. -/
theorem C4_shrink_updates_view_returns_suffix (p : buffer_pool)
    (s len newSize : Nat) (hInv : Inv p) (hlive : live_at p s)
    (hlen : len = chunk_size p.m_chunks p.m_last ⟨s, true⟩)
    (hle : newSize ≤ len) :
    (Chunk.shrink p (handleAt s len) newSize).1 = handleAt s newSize ∧
    used_mem p =
      used_mem (Chunk.shrink p (handleAt s len) newSize).2 + (len - newSize) ∧
    (newSize = len → Chunk.shrink p (handleAt s len) newSize = (handleAt s len, p)) := by
  refine ⟨?_, ?_, ?_⟩
  · by_cases heq : newSize = len
    · subst heq
      simp [Chunk.shrink, handleAt]
    · simp [Chunk.shrink, handleAt, heq]
  · by_cases heq : newSize = len
    · have h2 : (Chunk.shrink p (handleAt s len) newSize).2 = p := by
        simp [Chunk.shrink, handleAt, heq]
      rw [h2, heq]
      omega
    · have h2 : (Chunk.shrink p (handleAt s len) newSize).2 =
          resize p ⟨⟨some s, newSize⟩, true⟩ := by
        simp [Chunk.shrink, handleAt, heq]
      rw [h2]
      obtain ⟨A, B, hp, hA⟩ := live_split p s hInv.1 hlive
      obtain ⟨sA, sB, hAs, hsB, hAB, cA, cCB, linkA, lastCB, bA, bs, bB⟩ :=
        inv_split_facts p A ⟨s, true⟩ B hInv hp
      have hsz : len = (match B.head? with
          | some d => d.m_first - s
          | none => p.m_last - s) := by
        rw [hlen, hp]
        exact chunk_size_split A ⟨s, true⟩ B p.m_last hA
      have hfnd := findable_of_nodup (sorted_starts_nodup hInv.1)
      have husp : used_mem p = posSizes p.m_chunks p.m_last :=
        used_mem_eq_posSizes_of_findable p hfnd
      have hlt : newSize < len := Nat.lt_of_le_of_ne hle heq
      have hAne : ∀ a ∈ A, ∀ x : Nat, s ≤ x → a.m_first ≠ x := by
        intro a ha x hx
        have := hAs a ha
        simp only [] at this
        omega
      rcases B with _ | ⟨⟨e, fe⟩, B'⟩
      · -- tail entry: m_last retracts, list unchanged
        rw [resize_tail p A s newSize hA hp]
        have hus' : used_mem { p with m_last := s + newSize } =
            posSizes p.m_chunks (s + newSize) :=
          used_mem_eq_posSizes_of_findable _ hfnd
        rw [husp, hus', hp, posSizes_append_cons, posSizes_append_cons]
        have hsl : s < p.m_last := by simpa using bs
        have hlen2 : len = p.m_last - s := by simpa using hsz
        simp only [posSizes_singleton]
        simp
        omega
      · have hse : s < e := by simpa using hsB ⟨e, fe⟩ (by simp)
        have hlen2 : len = e - s := by simpa using hsz
        have hme : s + newSize < e := by omega
        have hsB' : ∀ b ∈ B', s < b.m_first := fun b hb => by
          simpa using hsB b (List.mem_cons_of_mem _ hb)
        have heB' : ∀ b ∈ B', e < b.m_first := by
          have h := sB
          rw [List.map_cons, List.pairwise_cons] at h
          intro b hb
          exact h.1 b.m_first (List.mem_map_of_mem _ hb)
        have sB' : List.Pairwise (· < ·) (B'.map mgm_chunk.m_first) := by
          have h := sB
          rw [List.map_cons, List.pairwise_cons] at h
          exact h.2
        have hfB' : findable B' := findable_of_lt_map sB'
        cases fe
        · -- free successor: extend it backward
          rw [resize_extend p A s newSize e B' hA hp]
          have hfnd' : findable (A ++ (⟨s, true⟩ : mgm_chunk) ::
              ⟨s + newSize, false⟩ :: B') := by
            apply findable_append A _ sA
            · unfold findable
              rw [List.pairwise_cons]
              constructor
              · intro y hy hyu
                rcases List.mem_cons.1 hy with rfl | hy
                · simp at hyu
                · have := hsB' y hy
                  simp only []
                  omega
              · rw [List.pairwise_cons]
                refine ⟨?_, hfB'⟩
                intro y hy hyu
                have := heB' y hy
                simp only []
                omega
            · intro a ha m hm hmu
              rcases List.mem_cons.1 hm with rfl | hm
              · exact hAne a ha s (Nat.le_refl s)
              · rcases List.mem_cons.1 hm with rfl | hm
                · exact hAne a ha (s + newSize) (Nat.le_add_right s newSize)
                · have := hsB' m hm
                  exact hAne a ha m.m_first (by omega)
          have hus' : used_mem { p with m_chunks := A ++ (⟨s, true⟩ : mgm_chunk) ::
              ⟨s + newSize, false⟩ :: B' } =
              posSizes (A ++ (⟨s, true⟩ : mgm_chunk) :: ⟨s + newSize, false⟩ :: B')
                p.m_last :=
            used_mem_eq_posSizes_of_findable _ hfnd'
          rw [husp, hus', hp, posSizes_append_cons, posSizes_append_cons,
            posSizes_cons_cons, posSizes_cons_cons,
            posSizes_cons_free ⟨e, false⟩ B' p.m_last rfl,
            posSizes_cons_free ⟨s + newSize, false⟩ B' p.m_last rfl]
          simp
          omega
        · -- in-use successor: insert a free entry
          rw [resize_insert p A s newSize e B' hA hp]
          have hfnd' : findable (A ++ (⟨s, true⟩ : mgm_chunk) ::
              ⟨s + newSize, false⟩ :: ⟨e, true⟩ :: B') := by
            apply findable_append A _ sA
            · unfold findable
              rw [List.pairwise_cons]
              constructor
              · intro y hy hyu
                rcases List.mem_cons.1 hy with rfl | hy
                · simp at hyu
                · rcases List.mem_cons.1 hy with rfl | hy
                  · simp only []
                    omega
                  · have := hsB' y hy
                    simp only []
                    omega
              · rw [List.pairwise_cons]
                constructor
                · intro y hy hyu
                  rcases List.mem_cons.1 hy with rfl | hy
                  · simp only []
                    omega
                  · have := heB' y hy
                    simp only []
                    omega
                · rw [List.pairwise_cons]
                  refine ⟨?_, hfB'⟩
                  intro y hy hyu
                  have := heB' y hy
                  simp only []
                  omega
            · intro a ha m hm hmu
              rcases List.mem_cons.1 hm with rfl | hm
              · exact hAne a ha s (Nat.le_refl s)
              · rcases List.mem_cons.1 hm with rfl | hm
                · exact hAne a ha (s + newSize) (Nat.le_add_right s newSize)
                · rcases List.mem_cons.1 hm with rfl | hm
                  · exact hAne a ha e (by omega)
                  · have := hsB' m hm
                    exact hAne a ha m.m_first (by omega)
          have hus' : used_mem { p with m_chunks := A ++ (⟨s, true⟩ : mgm_chunk) ::
              ⟨s + newSize, false⟩ :: ⟨e, true⟩ :: B' } =
              posSizes (A ++ (⟨s, true⟩ : mgm_chunk) ::
                ⟨s + newSize, false⟩ :: ⟨e, true⟩ :: B') p.m_last :=
            used_mem_eq_posSizes_of_findable _ hfnd'
          rw [husp, hus', hp, posSizes_append_cons, posSizes_append_cons,
            posSizes_cons_cons, posSizes_cons_cons,
            posSizes_cons_free ⟨s + newSize, false⟩ (⟨e, true⟩ :: B') p.m_last rfl]
          simp
          omega
  · intro heq
    subst heq
    simp [Chunk.shrink, handleAt]

/-- **C4 witness.** A 20-byte chunk at offset 0 (followed by a 20-byte
chunk at offset 20) shrunk to 10: the handle keeps start 0 with size 10,
`used_mem` drops from 40 to 30, and shrinking to the current size is a
no-op. -/
theorem C4_witness :
    (Chunk.shrink (⟨1024, [⟨0, true⟩, ⟨20, true⟩], 40⟩ : buffer_pool)
      (handleAt 0 20) 10).1 = handleAt 0 10 ∧
    used_mem (⟨1024, [⟨0, true⟩, ⟨20, true⟩], 40⟩ : buffer_pool) =
      used_mem (Chunk.shrink (⟨1024, [⟨0, true⟩, ⟨20, true⟩], 40⟩ : buffer_pool)
        (handleAt 0 20) 10).2 + (20 - 10) ∧
    (10 = 20 → Chunk.shrink (⟨1024, [⟨0, true⟩, ⟨20, true⟩], 40⟩ : buffer_pool)
      (handleAt 0 20) 10 = (handleAt 0 20, ⟨1024, [⟨0, true⟩, ⟨20, true⟩], 40⟩)) :=
  C4_shrink_updates_view_returns_suffix ⟨1024, [⟨0, true⟩, ⟨20, true⟩], 40⟩ 0 20 10
    (reach_inv 1024 ⟨1024, [⟨0, true⟩, ⟨20, true⟩], 40⟩
      (Relation.ReflTransGen.tail
        (Relation.ReflTransGen.tail Relation.ReflTransGen.refl
          (Step.request (fresh 1024) 20 (by decide) (by decide)))
        (Step.request ⟨1024, [⟨0, true⟩], 20⟩ 20 (by decide) (by decide))))
    ⟨0, ⟨0, true⟩, rfl, rfl, rfl⟩ (by decide) (by decide)

/-- **C5.** For every well-formed pool whose high-water mark is within the
arena and every live chunk whose segment is the last in the segment list,
shrinking it to a strictly smaller size retracts the high-water mark
`m_last` to `start + new_size` instead of creating a trailing free segment:
the segment list is unchanged (in particular `free_segment_count()` alias
`unused_chunks()` is unchanged), and `capacity() - used_mem()`, i.e.
`free_mem()`, increases by exactly the freed amount. -/
theorem C5_tail_shrink_retracts_high_water (p : buffer_pool) (s len newSize : Nat)
    (hInv : Inv p) (hms : p.m_last ≤ p.m_memorySize)
    (hlast : p.m_chunks.getLast? = some ⟨s, true⟩)
    (hlen : len = chunk_size p.m_chunks p.m_last ⟨s, true⟩)
    (hlt : newSize < len) :
    (Chunk.shrink p (handleAt s len) newSize).2.m_last = s + newSize ∧
    (Chunk.shrink p (handleAt s len) newSize).2.m_chunks = p.m_chunks ∧
    unused_chunks (Chunk.shrink p (handleAt s len) newSize).2 = unused_chunks p ∧
    free_mem (Chunk.shrink p (handleAt s len) newSize).2 =
      free_mem p + (len - newSize) := by
  have hne : newSize ≠ len := Nat.ne_of_lt hlt
  have h2 : (Chunk.shrink p (handleAt s len) newSize).2 =
      resize p ⟨⟨some s, newSize⟩, true⟩ := by
    simp [Chunk.shrink, handleAt, hne]
  rcases List.eq_nil_or_concat p.m_chunks with he | ⟨A, a, hc⟩
  · rw [he] at hlast
    simp at hlast
  · rw [List.concat_eq_append] at hc
    have ha : a = ⟨s, true⟩ := by
      rw [hc, List.getLast?_concat] at hlast
      exact Option.some_inj.1 hlast
    subst ha
    obtain ⟨sA, sB, hAs, hsB, hAB, cA, cCB, linkA, lastCB, bA, bs, bB⟩ :=
      inv_split_facts p A ⟨s, true⟩ [] hInv hc
    have hA : ∀ x ∈ A, x.m_first ≠ s := by
      intro x hx
      have := hAs x hx
      simp only [] at this
      omega
    have hres : resize p ⟨⟨some s, newSize⟩, true⟩ = { p with m_last := s + newSize } :=
      resize_tail p A s newSize hA hc
    rw [h2, hres]
    refine ⟨rfl, rfl, rfl, ?_⟩
    have hfnd := findable_of_nodup (sorted_starts_nodup hInv.1)
    have husp : used_mem p = posSizes p.m_chunks p.m_last :=
      used_mem_eq_posSizes_of_findable p hfnd
    have hus' : used_mem { p with m_last := s + newSize } =
        posSizes p.m_chunks (s + newSize) :=
      used_mem_eq_posSizes_of_findable _ hfnd
    have hsz : len = p.m_last - s := by
      rw [hlen, hc]
      have h := chunk_size_split A ⟨s, true⟩ [] p.m_last hA
      simpa using h
    have hsl : s < p.m_last := by simpa using bs
    have hbound : posSizes p.m_chunks p.m_last ≤ p.m_last := by
      apply posSizes_le
      · exact hInv.1
      · intro c hcm
        have := hInv.2.2.2 c hcm
        omega
    unfold free_mem size
    rw [husp, hus', hc, posSizes_append_cons, posSizes_append_cons]
    rw [hc, posSizes_append_cons] at hbound
    simp only [posSizes_singleton] at hbound ⊢
    simp at hbound ⊢
    omega

/-- **C5 witness.** Two chunks of 10 and 20 bytes; shrinking the trailing
20-byte chunk to 5 retracts `m_last` from 30 to 15, keeps the segment list,
and grows `free_mem` by 15. -/
theorem C5_witness :
    (Chunk.shrink (⟨1024, [⟨0, true⟩, ⟨10, true⟩], 30⟩ : buffer_pool)
      (handleAt 10 20) 5).2.m_last = 10 + 5 ∧
    (Chunk.shrink (⟨1024, [⟨0, true⟩, ⟨10, true⟩], 30⟩ : buffer_pool)
      (handleAt 10 20) 5).2.m_chunks = [⟨0, true⟩, ⟨10, true⟩] ∧
    unused_chunks (Chunk.shrink (⟨1024, [⟨0, true⟩, ⟨10, true⟩], 30⟩ : buffer_pool)
      (handleAt 10 20) 5).2 =
      unused_chunks (⟨1024, [⟨0, true⟩, ⟨10, true⟩], 30⟩ : buffer_pool) ∧
    free_mem (Chunk.shrink (⟨1024, [⟨0, true⟩, ⟨10, true⟩], 30⟩ : buffer_pool)
      (handleAt 10 20) 5).2 =
      free_mem (⟨1024, [⟨0, true⟩, ⟨10, true⟩], 30⟩ : buffer_pool) + (20 - 5) :=
  C5_tail_shrink_retracts_high_water ⟨1024, [⟨0, true⟩, ⟨10, true⟩], 30⟩ 10 20 5
    (reach_inv 1024 ⟨1024, [⟨0, true⟩, ⟨10, true⟩], 30⟩
      (Relation.ReflTransGen.tail
        (Relation.ReflTransGen.tail Relation.ReflTransGen.refl
          (Step.request (fresh 1024) 10 (by decide) (by decide)))
        (Step.request ⟨1024, [⟨0, true⟩], 10⟩ 20 (by decide) (by decide))))
    (by decide) (by decide) (by decide) (by decide)
